import Mathlib

/-!
Verification of the Crunch-Mania ("CrM") decompressor core.

Shallow embedding of `src/CRMDecompressor.cpp` and `src/HuffmanDecoder.hpp`:
byte buffers are `List Nat` (entries are bytes, read mod 256), machine
integers are `Nat` (with explicit `% 2^w` where C++ truncates), fallible
code returns `Option`.  The bit reader, both Huffman-table variants, and
both decode modes (standard and LZH) are translated from the source.
-/

/-- One byte of a buffer: reads are reduced mod 256 (uint8); an out-of-range
read yields 0 (the C++ `Buffer` would throw; no claim depends on it). -/
def getByte (p : List Nat) (i : Nat) : Nat := p.getD i 0 % 256

/-- Buffer read of a big-endian 16-bit word (Buffer::readBE16). -/
def readBE16 (p : List Nat) (i : Nat) : Nat := getByte p i * 256 + getByte p (i+1)

/-- Buffer read of a big-endian 32-bit word (Buffer::readBE32). -/
def readBE32 (p : List Nat) (i : Nat) : Nat :=
  ((getByte p i * 256 + getByte p (i+1)) * 256 + getByte p (i+2)) * 256 + getByte p (i+3)

/-- CRMDecompressor::detectHeader: the four accepted signatures
`CrM!`, `CrM2`, `Crm!`, `Crm2` as big-endian 32-bit words. -/
def detectHeader (hdr : Nat) : Bool :=
  hdr == 0x43724D21 || hdr == 0x43724D32 || hdr == 0x43726D21 || hdr == 0x43726D32

/-- The members of a CRMDecompressor instance frozen at construction. -/
structure CRMI where
  rawSize : Nat
  packedSize : Nat
  isSampled : Bool
  isLZH : Bool
deriving DecidableEq, Repr

/-- CRMDecompressor::CRMDecompressor (the packed-data constructor):
validates the header and sizes and freezes the flags.  `maxRaw`/`maxPacked`
stand for the framework ceilings `getMaxRawSize()`/`getMaxPackedSize()`
(their bodies are outside the given sources); the checks use them
exactly as the constructor does.  `none` models a thrown
InvalidFormatError. -/
def mkCRM (p : List Nat) (maxRaw maxPacked : Nat) : Option CRMI :=
  let hdr := readBE32 p 0
  if ¬ detectHeader hdr ∨ p.length < 20 then none
  else
    let rawSize := readBE32 p 6
    let packedSize := readBE32 p 10
    if rawSize = 0 ∨ packedSize = 0 ∨ rawSize > maxRaw ∨ packedSize > maxPacked ∨
        packedSize + 14 > p.length then none
    else some ⟨rawSize, packedSize, (hdr >>> 8) % 256 == 0x6D, hdr % 256 == 0x32⟩

/-- Bit-reader state: `off` is the index of the byte consumed next
(decremented before each refill), `cont` the buffered bits (LSB first),
`len` the number of valid bits in `cont`. -/
structure BitRd where
  off : Nat
  cont : Nat
  len : Nat
deriving DecidableEq, Repr

/-- The `readBit` lambda of CRMDecompressor::decompressImpl.  `none` models
a thrown DecompressionError (reading past the header region). -/
def readBit (p : List Nat) (s : BitRd) : Option (Nat × BitRd) :=
  if s.len = 0 then
    if s.off ≤ 14 then none
    else
      let c := getByte p (s.off - 1)
      some (c % 2, ⟨s.off - 1, c / 2, 7⟩)
  else
    some (s.cont % 2, ⟨s.off, s.cont / 2, s.len - 1⟩)

/-- Refill loop of the `readBits` lambda, with explicit fuel (each refill
adds 8 bits, so `n+1` iterations always finish the `while` loop; the fuel
is never exhausted when called by `readBits`). -/
def readBitsGo (p : List Nat) (n : Nat) : Nat → BitRd → Option (Nat × BitRd)
  | 0, _ => none
  | f+1, s =>
    if s.len < n then
      if s.off ≤ 14 then none
      else readBitsGo p n f ⟨s.off - 1, s.cont ||| (getByte p (s.off - 1) <<< s.len), s.len + 8⟩
    else
      some (s.cont % 2 ^ n, ⟨s.off, s.cont >>> n, s.len - n⟩)

/-- The `readBits` lambda of CRMDecompressor::decompressImpl: refill a byte
at a time while fewer than `n` bits are buffered, then return the low `n`
bits.  The C++ mask `(1<<count)-1` is `% 2^n`. -/
def readBits (p : List Nat) (n : Nat) (s : BitRd) : Option (Nat × BitRd) :=
  readBitsGo p n (n + 1) s

/-- Shift amount of the initialisation expression
`originalBitsContent >> (16-originalShift)` under C++ typing:
`originalShift` (uint16_t) promotes to int, so the subtraction is signed
and does not wrap. -/
def cShiftAmt (originalShift : Nat) : Int := 16 - (originalShift : Int)

/-- A uint32 shifted right by a C++ `int` amount.  Shift amounts outside
`[0,32)` are undefined behaviour in C++; the model returns 0 there (no
claim depends on that value). -/
def ushr32 (x : Nat) (k : Int) : Nat :=
  if 0 ≤ k ∧ k < 32 then x >>> k.toNat else 0

/-- Initial bit-reader state of CRMDecompressor::decompressImpl: the
trailing 6 bytes hold a 32-bit seed and a 16-bit shift; `bufBitsLength`
is a uint8_t, hence the `% 256`. -/
def initBR (p : List Nat) (packedSize : Nat) : BitRd :=
  let off := packedSize + 14 - 6
  let obc := readBE32 p off
  let os := readBE16 p (off + 4)
  ⟨off, ushr32 obc (cShiftAmt os), (os + 16) % 256⟩

/-! ## Huffman decoder, flat variant (HuffmanDecoder with compile-time depth) -/

/-- Backing array of the flat variant: `(2<<depth)-2` entries, all EMPTY. -/
def mkFlat (depth e : Nat) : List Nat := List.replicate ((2 <<< depth) - 2) e

/-- Loop body of HuffmanDecoder::insert (flat variant): walk the code
MSB-first (`j` counts remaining bits), failing on any non-EMPTY slot and
storing the value at the final slot. -/
def insertFlatGo (e code val : Nat) : Nat → Nat → List Nat → Option (List Nat)
  | 0, _, t => some t
  | j+1, i, t =>
    let i' := if code.testBit j then i + 1 else i
    if t.getD i' e ≠ e then none
    else if j = 0 then some (t.set i' val)
    else insertFlatGo e code val j (i' * 2 + 2) t

/-- HuffmanDecoder::insert (flat variant, compile-time depth `D`). -/
def insertFlat (D e : Nat) (t : List Nat) (len code val : Nat) : Option (List Nat) :=
  if val = e ∨ len > D then none else insertFlatGo e code val len 0 t

/-- HuffmanDecoder::decode (flat variant): the do-while walk, with
explicit fuel.  The index strictly grows and stays below `t.length` while
the loop runs, so the `t.length + 1` fuel supplied by `decodeFlat` is
never exhausted. -/
def decodeFlatGo (e : Nat) (t : List Nat) (p : List Nat) :
    Nat → Nat → BitRd → Option (Nat × BitRd)
  | 0, _, _ => none
  | f+1, i, s =>
    match readBit p s with
    | none => none
    | some (b, s') =>
      if t.getD (i + b) e ≠ e then some (t.getD (i + b) e, s')
      else if (i + b) * 2 + 2 < t.length then decodeFlatGo e t p f ((i + b) * 2 + 2) s'
      else none

/-- HuffmanDecoder::decode (flat variant), starting at the root. -/
def decodeFlat (e : Nat) (t : List Nat) (p : List Nat) (s : BitRd) : Option (Nat × BitRd) :=
  decodeFlatGo e t p (t.length + 1) 0 s

/-! ## Huffman decoder, dynamic variant (the depth-0 specialisation) -/

/-- Node of the dynamic variant: two child indices (0 = absent) and a value. -/
structure HNode where
  sub0 : Nat
  sub1 : Nat
  val : Nat
deriving DecidableEq, Repr

/-- Child selection `node.sub[bit]`. -/
def hsub (n : HNode) (b : Bool) : Nat := if b then n.sub1 else n.sub0

/-- Node access `_table[i]`; out-of-range reads give an EMPTY leaf (the
C++ vector access would be out of bounds; unreachable on tables built by
`insertD`). -/
def getN (e : Nat) (t : List HNode) (i : Nat) : HNode := t.getD i ⟨0, 0, e⟩

/-- Update `_table[i].sub[b] := x`. -/
def setSub (t : List HNode) (i : Nat) (b : Bool) (x : Nat) : List HNode :=
  match t.get? i with
  | none => t
  | some n => t.set i (if b then ⟨n.sub0, x, n.val⟩ else ⟨x, n.sub1, n.val⟩)

/-- The freshly constructed dynamic decoder: one EMPTY root node. -/
def mkDyn (e : Nat) : List HNode := [⟨0, 0, e⟩]

/-- Loop body of HuffmanDecoder<T,emptyValue,0>::insert: `cb` is
`currentBit`, counting down to 0; at `cb = 0` the leaf is handled
(`codeBit` is forced to 0 there and an existing node means failure). -/
def insertDGo (e val code : Nat) : Nat → Nat → List HNode → Option (List HNode)
  | 0, i, t =>
    if i = t.length then some (t ++ [⟨0, 0, val⟩]) else none
  | cb+1, i, t =>
    let codeBit := code.testBit cb
    if i = t.length then
      insertDGo e val code cb (i + 1)
        (t ++ [⟨if codeBit then 0 else t.length + 1, if codeBit then t.length + 1 else 0, e⟩])
    else if (getN e t i).val ≠ e then none
    else
      let tmp := hsub (getN e t i) codeBit
      if tmp = 0 then insertDGo e val code cb t.length (setSub t i codeBit t.length)
      else insertDGo e val code cb tmp t

/-- HuffmanDecoder<T,emptyValue,0>::insert. -/
def insertD (e : Nat) (t : List HNode) (len code val : Nat) : Option (List HNode) :=
  if val = e then none else insertDGo e val code len 0 t

/-- Loop body of HuffmanDecoder<T,emptyValue,0>::decode.  On every table
built by `insertD` the walk visits strictly increasing node indices, so
`t.length + 1` steps (the fuel used by `decodeDyn`) are never exhausted;
the C++ loop has no such bound. -/
def decodeDynGo (e : Nat) (t : List HNode) (p : List Nat) :
    Nat → Nat → BitRd → Option (Nat × BitRd)
  | 0, _, _ => none
  | f+1, i, s =>
    if i < t.length then
      match readBit p s with
      | none => none
      | some (b, s') =>
        let i' := hsub (getN e t i) (b = 1)
        let ret := (getN e t i').val
        if i' = 0 then (if ret = e then none else some (ret, s'))
        else if ret = e then decodeDynGo e t p f i' s'
        else some (ret, s')
    else none

/-- HuffmanDecoder<T,emptyValue,0>::decode. -/
def decodeDyn (e : Nat) (t : List HNode) (p : List Nat) (s : BitRd) : Option (Nat × BitRd) :=
  decodeDynGo e t p (t.length + 1) 0 s

/-- A prefix-code entry (HuffmanCode<T>). -/
structure HCode where
  len : Nat
  code : Nat
  val : Nat
deriving DecidableEq, Repr

/-- Insert a list of codes in order into a flat table (the
initializer-list constructor), failing as soon as one insert fails. -/
def insertFlatAll (D e : Nat) : List Nat → List HCode → Option (List Nat)
  | t, [] => some t
  | t, c :: cs =>
    match insertFlat D e t c.len c.code c.val with
    | none => none
    | some t' => insertFlatAll D e t' cs

/-- Insert a list of codes in order into a dynamic table. -/
def insertDynAll (e : Nat) : List HNode → List HCode → Option (List HNode)
  | t, [] => some t
  | t, c :: cs =>
    match insertD e t c.len c.code c.val with
    | none => none
    | some t' => insertDynAll e t' cs

/-! ## Decompressor state and the standard mode -/

/-- Decode state: bit reader, output buffer, write cursor `destOffset`,
plus a ghost `trace` of written indices (most recent first).  The trace is
instrumentation only; it records each `dest[--destOffset] = v` store. -/
structure DecSt where
  br : BitRd
  dest : List Nat
  dOff : Nat
  trace : List Nat
deriving DecidableEq, Repr

/-- One store `dest[--destOffset] := v` (uint8 store, hence `% 256`),
recorded in the ghost trace. -/
def wrSt (st : DecSt) (v : Nat) : DecSt :=
  ⟨st.br, st.dest.set (st.dOff - 1) (v % 256), st.dOff - 1, (st.dOff - 1) :: st.trace⟩

/-- Literal run of the standard mode: `count` times, read 8 bits and store
at the next decreasing position. -/
def litRun (p : List Nat) : Nat → DecSt → Option DecSt
  | 0, st => some st
  | c+1, st =>
    match readBits p 8 st.br with
    | none => none
    | some (v, s') => litRun p c (wrSt ⟨s', st.dest, st.dOff, st.trace⟩ v)

/-- Match copy `for (i<count) dest[--destOffset]=dest[--distance]` where
`cur` is the (already offset) source cursor `distance`. -/
def matchCopy : Nat → Nat → DecSt → DecSt
  | 0, _, st => st
  | c+1, cur, st => matchCopy c (cur - 1) (wrSt st (st.dest.getD (cur - 1) 0))

/-- The fixed standard-mode length-class decoder (values 0..3, EMPTY 0xff,
depth 3), built by the same insert sequence as the initializer list. -/
def stdLenTable : List Nat :=
  (insertFlatAll 3 255 (mkFlat 3 255) [⟨1, 0, 0⟩, ⟨2, 2, 1⟩, ⟨3, 6, 2⟩, ⟨3, 7, 3⟩]).getD []

/-- The fixed standard-mode distance-class decoder (values 0..2, EMPTY
0xff, depth 2). -/
def stdDistTable : List Nat :=
  (insertFlatAll 2 255 (mkFlat 2 255) [⟨1, 0, 0⟩, ⟨2, 2, 1⟩, ⟨2, 3, 2⟩]).getD []

/-- Table `lengthBits[4] = {1,2,4,8}`. -/
def lengthBitsArr (i : Nat) : Nat := [1, 2, 4, 8].getD i 0

/-- Table `lengthAdditions[4] = {2,4,8,24}`. -/
def lengthAddArr (i : Nat) : Nat := [2, 4, 8, 24].getD i 0

/-- Table `distanceBits[3] = {9,5,14}`. -/
def distBitsArr (i : Nat) : Nat := [9, 5, 14].getD i 0

/-- Table `distanceAdditions[3] = {32,0,544}`. -/
def distAddArr (i : Nat) : Nat := [32, 0, 544].getD i 0

/-- Standard-mode match tail (after the length `count` is final): decode
the distance class, read the distance, check the three bounds, copy. -/
def stdMatchFrom (p : List Nat) (rs : Nat) (st : DecSt) (s3 : BitRd) (count : Nat) :
    Option DecSt :=
  match decodeFlat 255 stdDistTable p s3 with
  | none => none
  | some (di, s4) =>
    match readBits p (distBitsArr di) s4 with
    | none => none
    | some (dv, s5) =>
      let distance := dv + distAddArr di
      if distance = 0 ∨ st.dOff < count ∨ st.dOff + distance > rs then none
      else some (matchCopy count (st.dOff + distance) ⟨s5, st.dest, st.dOff, st.trace⟩)

/-- One iteration of the standard-mode `while (destOffset)` loop body. -/
def stdToken (p : List Nat) (rs : Nat) (st : DecSt) : Option DecSt :=
  match readBit p st.br with
  | none => none
  | some (b, s1) =>
    if b = 1 then
      match readBits p 8 s1 with
      | none => none
      | some (v, s2) => some (wrSt ⟨s2, st.dest, st.dOff, st.trace⟩ v)
    else
      match decodeFlat 255 stdLenTable p s1 with
      | none => none
      | some (li, s2) =>
        match readBits p (lengthBitsArr li) s2 with
        | none => none
        | some (v, s3) =>
          let count := v + lengthAddArr li
          if count = 23 then
            match readBit p s3 with
            | none => none
            | some (b2, s4) =>
              match (if b2 = 1 then readBits p 5 s4 else readBits p 14 s4) with
              | none => none
              | some (cv, s5) =>
                if cv + 15 > st.dOff then none
                else litRun p (cv + 15) ⟨s5, st.dest, st.dOff, st.trace⟩
          else stdMatchFrom p rs st s3 (if count > 23 then count - 1 else count)

/-- The standard-mode loop, fuelled (each surviving iteration writes at
least one byte, so `rawSize + 1` fuel always suffices). -/
def stdLoop (p : List Nat) (rs : Nat) : Nat → DecSt → Option DecSt
  | 0, _ => none
  | f+1, st =>
    if st.dOff = 0 then some st
    else
      match stdToken p rs st with
      | none => none
      | some st' => stdLoop p rs f st'

/-! ## LZH mode -/

/-- Length-table read of `readHuffmanTable`: for `i` running over
`maxDepth` slots, `lengthTable[i] := readBits(min(i+1, codeLength))`. -/
def rdLens (p : List Nat) (cl : Nat) : Nat → Nat → BitRd → Option (List Nat × BitRd)
  | _, 0, s => some ([], s)
  | i, k+1, s =>
    match readBits p (min (i+1) cl) s with
    | none => none
    | some (v, s') =>
      match rdLens p cl (i+1) k s' with
      | none => none
      | some (l, s'') => some (v :: l, s'')

/-- Inner loop of `readHuffmanTable` at a fixed `depth`: read a leaf value,
insert `{depth, code >> (maxDepth-depth), value}`, advance
`code += 1 << (maxDepth-depth)`. -/
def insRow (p : List Nat) (cl md depth : Nat) :
    Nat → Nat → List HNode → BitRd → Option (List HNode × Nat × BitRd)
  | 0, code, t, s => some (t, code, s)
  | k+1, code, t, s =>
    match readBits p cl s with
    | none => none
    | some (v, s') =>
      match insertD 0x200 t depth (code >>> (md - depth)) v with
      | none => none
      | some t' => insRow p cl md depth k (code + 2 ^ (md - depth)) t' s'

/-- Outer loop of `readHuffmanTable`: depths `1..maxDepth`, with
`lengthTable[depth-1]` codes per depth. -/
def insAll (p : List Nat) (cl md : Nat) :
    Nat → List Nat → Nat → List HNode → BitRd → Option (List HNode × BitRd)
  | _, [], _, t, s => some (t, s)
  | depth, n :: rest, code, t, s =>
    match insRow p cl md depth n code t s with
    | none => none
    | some (t', code', s') => insAll p cl md (depth+1) rest code' t' s'

/-- The `readHuffmanTable` lambda: serialised table with leaf width `cl`.
EMPTY is 0x200 (CRMHuffmanDecoder = HuffmanDecoder<uint32_t,0x200,0>). -/
def readHuffTable (p : List Nat) (cl : Nat) (s : BitRd) : Option (List HNode × BitRd) :=
  match readBits p 4 s with
  | none => none
  | some (md, s1) =>
    if md = 0 then none
    else
      match rdLens p cl 0 md s1 with
      | none => none
      | some (lens, s2) => insAll p cl md 1 lens 0 (mkDyn 0x200) s2

/-- LZH distance decode after the distance-width symbol `db`:
`readBits(1)+1` when `db = 0`, else `(readBits(db) | (1<<db)) + 1`. -/
def lzhDistance (p : List Nat) (db : Nat) (s : BitRd) : Option (Nat × BitRd) :=
  if db = 0 then
    match readBits p 1 s with
    | none => none
    | some (x, s') => some (x + 1, s')
  else
    match readBits p db s with
    | none => none
    | some (x, s') => some ((x ||| (1 <<< db)) + 1, s')

/-- The LZH token loop of one block (`items` iterations). -/
def lzhTokens (p : List Nat) (rs : Nat) (lt dt : List HNode) :
    Nat → DecSt → Option DecSt
  | 0, st => some st
  | k+1, st =>
    match decodeDyn 0x200 lt p st.br with
    | none => none
    | some (cnt, s1) =>
      if cnt &&& 0x100 ≠ 0 then
        if st.dOff = 0 then none
        else lzhTokens p rs lt dt k (wrSt ⟨s1, st.dest, st.dOff, st.trace⟩ cnt)
      else
        let c := cnt + 3
        match decodeDyn 0x200 dt p s1 with
        | none => none
        | some (db, s2) =>
          match lzhDistance p db s2 with
          | none => none
          | some (dist, s3) =>
            if st.dOff < c ∨ st.dOff + dist > rs then none
            else lzhTokens p rs lt dt k (matchCopy c (st.dOff + dist) ⟨s3, st.dest, st.dOff, st.trace⟩)

/-- The LZH do-while block loop, fuelled on blocks. -/
def lzhBlocks (p : List Nat) (rs : Nat) : Nat → DecSt → Option DecSt
  | 0, _ => none
  | f+1, st =>
    match readHuffTable p 9 st.br with
    | none => none
    | some (lt, s1) =>
      match readHuffTable p 4 s1 with
      | none => none
      | some (dt, s2) =>
        match readBits p 16 s2 with
        | none => none
        | some (itm, s3) =>
          match lzhTokens p rs lt dt (itm + 1) ⟨s3, st.dest, st.dOff, st.trace⟩ with
          | none => none
          | some st' =>
            match readBit p st'.br with
            | none => none
            | some (b, s4) =>
              if b = 1 then lzhBlocks p rs f ⟨s4, st'.dest, st'.dOff, st'.trace⟩
              else some ⟨s4, st'.dest, st'.dOff, st'.trace⟩

/-! ## Top level -/

/-- Lines 101–252 of CRMDecompressor::decompressImpl: initialise the bit
reader, run the mode loop over the caller's raw buffer `raw0`, and apply
the final `if (destOffset) throw` check.  The delta post-filter is applied
by `decompressImplSingle` afterwards. -/
def coreDecode (p : List Nat) (rs ps : Nat) (lzh : Bool) (fuel : Nat) (raw0 : List Nat) :
    Option DecSt :=
  let st0 : DecSt := ⟨initBR p ps, raw0, rs, []⟩
  match (if lzh then lzhBlocks p rs fuel st0 else stdLoop p rs fuel st0) with
  | none => none
  | some st => if st.dOff ≠ 0 then none else some st

/-- Modelled from the spec: `DLTADecode::decode` (its source is not among
the given files) replaces each 8-bit sample with the running sum of the
deltas, in place over `[0, rawSize)`. -/
def dltaSum : Nat → List Nat → List Nat
  | _, [] => []
  | acc, x :: xs => ((acc + x) % 256) :: dltaSum ((acc + x) % 256) xs

/-- Delta post-filter over the first `rs` bytes of the raw buffer. -/
def dltaRange (l : List Nat) (rs : Nat) : List Nat :=
  dltaSum 0 (l.take rs) ++ l.drop rs

/-- CRMDecompressor::decompressImpl(rawData, verify): the one-buffer form.
Rejects a raw buffer smaller than rawSize, decodes, applies the delta
filter when sampled. -/
def decompressImplSingle (p : List Nat) (rs ps : Nat) (lzh smp : Bool) (fuel : Nat)
    (rawData : List Nat) : Option (List Nat) :=
  if rawData.length < rs then none
  else
    match coreDecode p rs ps lzh fuel rawData with
    | none => none
    | some st => some (if smp then dltaRange st.dest rs else st.dest)

/-- CRMDecompressor::decompressImpl(rawData, previousData, verify): the XPK
form checks `rawData.size() != rawSize` and then calls the one-buffer
form. -/
def decompressImplXPK (p : List Nat) (rs ps : Nat) (lzh smp : Bool) (fuel : Nat)
    (rawData : List Nat) : Option (List Nat) :=
  if rawData.length ≠ rs then none
  else decompressImplSingle p rs ps lzh smp fuel rawData

/-! ## Claim-side definitions and proof machinery -/

/-- Value of a bit list, LSB first (head is the next bit delivered). -/
def natOfBits : List Bool → Nat
  | [] => 0
  | b :: bs => (if b then 1 else 0) + 2 * natOfBits bs

/-- A bit-reader state that delivers exactly the bits of `bs` and is then
exhausted (`off = 14` makes any refill fail). -/
def bitsToBR (bs : List Bool) : BitRd := ⟨14, natOfBits bs, bs.length⟩

/-- The flat-variant decode walk as amended: the index starts at 0, each
bit first adds the bit, the slot at that index is inspected, and on EMPTY
the index becomes `i*2+2` before the next bit. -/
def c2Walk (e : Nat) (t : List Nat) : Nat → List Bool → Option (Nat × List Bool)
  | _, [] => none
  | i, b :: bs =>
    let i' := i + (if b then 1 else 0)
    if t.getD i' e ≠ e then some (t.getD i' e, bs)
    else if i' * 2 + 2 < t.length then c2Walk e t (i' * 2 + 2) bs
    else none

/-- The flat-variant decode walk exactly as the claim states it: the index
starts at 0 and after each bit becomes `i*2 + 2 + bit`, and that slot is
inspected. -/
def c2SpecWalk (e : Nat) (t : List Nat) : Nat → List Bool → Option (Nat × List Bool)
  | _, [] => none
  | i, b :: bs =>
    let i' := i * 2 + 2 + (if b then 1 else 0)
    if t.getD i' e ≠ e then some (t.getD i' e, bs)
    else if i' * 2 + 2 < t.length then c2SpecWalk e t i' bs
    else none

/-- Read `n` values of `w` bits each, in stream order. -/
def readNVals (p : List Nat) (w : Nat) : Nat → BitRd → Option (List Nat × BitRd)
  | 0, s => some ([], s)
  | n+1, s =>
    match readBits p w s with
    | none => none
    | some (v, s') =>
      match readNVals p w n s' with
      | none => none
      | some (vs, s'') => some (v :: vs, s'')

/-- Place a list of bytes at consecutive decreasing positions
`dOff-1, dOff-2, …` (the claim's description of a literal run). -/
def placeDesc (dest : List Nat) (dOff : Nat) : List Nat → List Nat
  | [] => dest
  | v :: vs => placeDesc (dest.set (dOff - 1) (v % 256)) (dOff - 1) vs

/-- The claim's indexed description of the match copy:
`dest[destOffset-1-i] := dest[(destOffset+distance)-1-i]` for
`i = 0..count-1`, performed sequentially. -/
def c6Copy (dOff dist : Nat) : Nat → Nat → List Nat → List Nat
  | _, 0, dest => dest
  | i, n+1, dest =>
    c6Copy dOff dist (i+1) n (dest.set (dOff - 1 - i) (dest.getD (dOff + dist - 1 - i) 0 % 256))

/-- Expand a per-depth count list into the list of leaf depths, starting
at depth `d`. -/
def depthsOf : Nat → List Nat → List Nat
  | _, [] => []
  | d, n :: rest => List.replicate n d ++ depthsOf (d+1) rest

/-- Canonical code assignment: the `k`-th leaf of depth `d` gets code
`cum >> (md - d)` where `cum` is the running sum of `2^(md - depth)` over
all earlier leaves. -/
def canonGo (md : Nat) : Nat → List Nat → List Nat → List HCode
  | cum, d :: ds, v :: vs => ⟨d, cum >>> (md - d), v⟩ :: canonGo md (cum + 2 ^ (md - d)) ds vs
  | _, _, _ => []

/-- Canonical triples of a serialised LZH table with depth counts `lens`
and leaf values `vals`. -/
def canonTriples (md : Nat) (lens vals : List Nat) : List HCode :=
  canonGo md 0 (depthsOf 1 lens) vals

/-- Total canonical code advance of a list of leaf depths. -/
def sumPow (md : Nat) (ds : List Nat) : Nat := (ds.map (fun d => 2 ^ (md - d))).sum

/-- The `len` low bits of `code`, most significant first (the bit order in
which both insert variants walk a code). -/
def lowBits : Nat → Nat → List Bool
  | 0, _ => []
  | l+1, code => code.testBit l :: lowBits l code

/-- `a` is a prefix of `b` as prefix codes: `a`'s bit string is an initial
segment of `b`'s (equal codes included). -/
def codePfx (a b : HCode) : Prop :=
  a.len ≤ b.len ∧ lowBits a.len a.code = (lowBits b.len b.code).take a.len

instance (a b : HCode) : Decidable (codePfx a b) := by
  unfold codePfx; infer_instance

/-- One step of the flat walk: add the bit to the index. -/
def stepF (i : Nat) (b : Bool) : Nat := if b then i + 1 else i

/-- Indices inspected by the flat walk from base `i` along `bs`. -/
def pathB : Nat → List Bool → List Nat
  | _, [] => []
  | i, b :: bs => stepF i b :: pathB (stepF i b * 2 + 2) bs

/-- Final inspected index of the flat walk (the leaf slot of a code). -/
def leafB (i : Nat) (bs : List Bool) : Nat := (pathB i bs).getLastD i

/-- HuffmanDecoder::insert (flat), with the code as an explicit bit list
(`insertFlatGo` with `lowBits` applied). -/
def insertFlatB (e val : Nat) : List Bool → Nat → List Nat → Option (List Nat)
  | [], _, t => some t
  | b :: bs, i, t =>
    let i' := stepF i b
    if t.getD i' e ≠ e then none
    else if bs.isEmpty then some (t.set i' val)
    else insertFlatB e val bs (i' * 2 + 2) t

/-- HuffmanDecoder<T,e,0>::insert (dynamic), with the code as an explicit
bit list (`insertDGo` with `lowBits` applied). -/
def insertDB (e val : Nat) : List Bool → Nat → List HNode → Option (List HNode)
  | [], i, t => if i = t.length then some (t ++ [⟨0, 0, val⟩]) else none
  | b :: bs, i, t =>
    if i = t.length then
      insertDB e val bs (i + 1)
        (t ++ [⟨if b then 0 else t.length + 1, if b then t.length + 1 else 0, e⟩])
    else if (getN e t i).val ≠ e then none
    else
      let tmp := hsub (getN e t i) b
      if tmp = 0 then insertDB e val bs t.length (setSub t i b t.length)
      else insertDB e val bs tmp t

/-- The nodes appended by the push phase of the dynamic insert: a chain
from `base` along `bs` ending in the value leaf. -/
def pushChainB (e val : Nat) : List Bool → Nat → List HNode
  | [], _ => [⟨0, 0, val⟩]
  | b :: bs, base => ⟨if b then 0 else base + 1, if b then base + 1 else 0, e⟩ ::
      pushChainB e val bs (base + 1)

/-- Follow existing child links from node `i` along `bs` (0 = absent). -/
def followIdx (e : Nat) (t : List HNode) : Nat → List Bool → Option Nat
  | i, [] => some i
  | i, b :: bs =>
    let tmp := hsub (getN e t i) b
    if tmp = 0 then none else followIdx e t tmp bs

/-- Well-formed dynamic table: nonempty, all child indices in range. -/
def WFdyn (e : Nat) (t : List HNode) : Prop :=
  1 ≤ t.length ∧ ∀ j < t.length, (getN e t j).sub0 < t.length ∧ (getN e t j).sub1 < t.length

/-- The bit path `bs` exists from node `i`: every prefix reaches an
in-range node, intermediate nodes are EMPTY, and the endpoint holds
`val`. -/
def pathAt (e : Nat) (t : List HNode) (i : Nat) (bs : List Bool) (val : Nat) : Prop :=
  ∀ m ≤ bs.length, ∃ n, followIdx e t i (bs.take m) = some n ∧ n < t.length ∧
    (m < bs.length → (getN e t n).val = e) ∧ (m = bs.length → (getN e t n).val = val)

/-- Code `c` is stored in dynamic table `t`: its bit path exists from the
root and ends in its value. -/
def storedAt (e : Nat) (t : List HNode) (c : HCode) : Prop :=
  pathAt e t 0 (lowBits c.len c.code) c.val

/-- Concrete `Crm!` stream (sampled, standard mode): rawSize 1,
packedSize 6, all-zero payload.  Accepted by the constructor. -/
def exCrm1 : List Nat :=
  [0x43, 0x72, 0x6D, 0x21, 0, 0, 0, 0, 0, 1, 0, 0, 0, 6, 0, 0, 0, 0, 0, 0]

/-- Concrete `CrM!` stream whose trailing shift word is 17 (> 16):
rawSize 1, packedSize 6.  Accepted by the constructor. -/
def exC10 : List Nat :=
  [0x43, 0x72, 0x4D, 0x21, 0, 0, 0, 0, 0, 1, 0, 0, 0, 6, 0, 0, 0, 0, 0, 17]

/-- Concrete `CrM!` stream that decodes successfully: shift word 0, seed
`0x00830000`, so the 16 seeded bits decode one literal byte 0x41 into a
1-byte raw buffer. -/
def exRun1 : List Nat :=
  [0x43, 0x72, 0x4D, 0x21, 0, 0, 0, 0, 0, 1, 0, 0, 0, 6, 0x00, 0x83, 0x00, 0x00, 0, 0]

/-- Concrete `CrM!` stream whose trailing shift word is 297, so that
`originalShift + 16 = 313` really is reduced mod 256 by the uint8_t
counter. -/
def exC10b : List Nat :=
  [0x43, 0x72, 0x4D, 0x21, 0, 0, 0, 0, 0, 1, 0, 0, 0, 6, 0, 0, 0, 0, 1, 0x29]

/-! ## Theorems -/

theorem getByte_lt (p : List Nat) (i : Nat) : getByte p i < 256 :=
  Nat.mod_lt _ (by norm_num)

theorem readBE32_byte2 (p : List Nat) : (readBE32 p 0) >>> 8 % 256 = getByte p 2 := by
  have h0 := getByte_lt p 0
  have h1 := getByte_lt p 1
  have h2 := getByte_lt p 2
  have h3 := getByte_lt p 3
  unfold readBE32
  rw [Nat.shiftRight_eq_div_pow]
  have hp : (2:Nat) ^ 8 = 256 := by norm_num
  rw [hp]
  simp only [Nat.zero_add]
  omega

theorem readBE32_byte3 (p : List Nat) : readBE32 p 0 % 256 = getByte p 3 := by
  have h3 := getByte_lt p 3
  unfold readBE32
  simp only [Nat.zero_add]
  omega

/-- C1 (amended): for every packed stream accepted by the constructor, the
sampled flag is set exactly when byte index 2 (the third byte) of the
signature equals `'m'`, and the LZH flag exactly when byte index 3 (the
fourth byte) equals `'2'`. -/
theorem c1_amended_flags (p : List Nat) (maxR maxP : Nat) (c : CRMI)
    (h : mkCRM p maxR maxP = some c) :
    c.isSampled = (getByte p 2 == 109) ∧ c.isLZH = (getByte p 3 == 50) := by
  simp only [mkCRM] at h
  split at h
  · exact absurd h (by simp)
  · split at h
    · exact absurd h (by simp)
    · injection h with h
      rw [← h]
      refine ⟨?_, ?_⟩
      · show ((readBE32 p 0) >>> 8 % 256 == 109) = (getByte p 2 == 109)
        rw [readBE32_byte2]
      · show (readBE32 p 0 % 256 == 50) = (getByte p 3 == 50)
        rw [readBE32_byte3]

theorem c1_amended_flags_witness :
    (true = (getByte exCrm1 2 == 109)) ∧ (false = (getByte exCrm1 3 == 50)) := by
  have h := c1_amended_flags exCrm1 1048576 1048576 ⟨1, 6, true, false⟩ (by decide)
  exact h

/-- C1 counterexample: the stream `Crm!` (rawSize 1, packedSize 6) is
accepted with the sampled flag set, yet byte index 1 (the second byte) of
its signature is `'r'` (0x72), not `'m'` (0x6D) — the sampled flag is
keyed on byte index 2, not byte index 1. -/
theorem c1_counterexample :
    mkCRM exCrm1 1048576 1048576 = some ⟨1, 6, true, false⟩ ∧ getByte exCrm1 1 ≠ 109 := by
  decide

/-- C10 counterexample: the shift amount `16 - originalShift` is computed
in (promoted) signed int arithmetic, so it never wraps around to 32 or
more — for `originalShift > 16` it is negative instead. -/
theorem c10_counterexample :
    ¬ ∃ originalShift : Nat, 16 < originalShift ∧ 32 ≤ cShiftAmt originalShift := by
  rintro ⟨os, h1, h2⟩
  unfold cShiftAmt at h2
  omega

/-- C10 (amended): decompress never validates the trailing shift word: the
constructor accepts `exC10` (originalShift 17 > 16) and `exC10b`
(originalShift 297), the initial `bufBitsLength` is `(originalShift+16) %
256` (a uint8_t), and for originalShift 17 the shift amount
`16 - originalShift` is negative (an invalid shift for a uint32,
undefined behaviour) — no DecompressionError is raised. -/
theorem c10_amended_no_validation :
    mkCRM exC10 1048576 1048576 = some ⟨1, 6, false, false⟩ ∧
    readBE16 exC10 (6 + 14 - 2) = 17 ∧
    cShiftAmt 17 < 0 ∧
    initBR exC10 6 = ⟨14, 0, (17 + 16) % 256⟩ ∧
    mkCRM exC10b 1048576 1048576 = some ⟨1, 6, false, false⟩ ∧
    readBE16 exC10b (6 + 14 - 2) = 297 ∧
    initBR exC10b 6 = ⟨14, 0, 57⟩ ∧ (57 ≠ 297 + 16 ∧ 57 = (297 + 16) % 256) := by
  decide

/-- C4: the one-buffer decompress form fails exactly on raw buffers
smaller than rawSize (a larger buffer proceeds to the core decode), the
XPK form fails whenever the size differs from rawSize, before any
decoding; on equal sizes the two forms agree, and apart from the size
check the one-buffer form is the core decode (plus the sampled filter). -/
theorem c4_size_checks (p : List Nat) (rs ps : Nat) (lzh smp : Bool) (fuel : Nat)
    (rawData : List Nat) :
    (rawData.length < rs → decompressImplSingle p rs ps lzh smp fuel rawData = none) ∧
    (rawData.length ≠ rs → decompressImplXPK p rs ps lzh smp fuel rawData = none) ∧
    (rawData.length = rs →
      decompressImplXPK p rs ps lzh smp fuel rawData =
        decompressImplSingle p rs ps lzh smp fuel rawData) ∧
    (rs ≤ rawData.length →
      decompressImplSingle p rs ps lzh smp fuel rawData =
        Option.map (fun st => if smp then dltaRange st.dest rs else st.dest)
          (coreDecode p rs ps lzh fuel rawData)) := by
  refine ⟨?_, ?_, ?_, ?_⟩
  · intro h
    unfold decompressImplSingle
    simp [h]
  · intro h
    unfold decompressImplXPK
    simp [h]
  · intro h
    unfold decompressImplXPK
    simp [h]
  · intro h
    unfold decompressImplSingle
    rw [if_neg (by omega)]
    cases coreDecode p rs ps lzh fuel rawData <;> rfl

theorem c4_size_checks_witness :
    decompressImplSingle exRun1 1 6 false false 2 [] = none ∧
    decompressImplXPK exRun1 1 6 false false 2 [7, 7] = none ∧
    decompressImplXPK exRun1 1 6 false false 2 [7] =
      decompressImplSingle exRun1 1 6 false false 2 [7] ∧
    decompressImplSingle exRun1 1 6 false false 2 [7] =
      Option.map (fun st => if false then dltaRange st.dest 1 else st.dest)
        (coreDecode exRun1 1 6 false 2 [7]) := by
  refine ⟨(c4_size_checks exRun1 1 6 false false 2 []).1 (by decide),
    (c4_size_checks exRun1 1 6 false false 2 [7, 7]).2.1 (by decide),
    (c4_size_checks exRun1 1 6 false false 2 [7]).2.2.1 (by decide),
    (c4_size_checks exRun1 1 6 false false 2 [7]).2.2.2 (by decide)⟩

theorem readBitsGo_lt (p : List Nat) (n : Nat) : ∀ f s v s',
    readBitsGo p n f s = some (v, s') → v < 2 ^ n := by
  intro f
  induction f with
  | zero => intro s v s' h; exact absurd h (by simp [readBitsGo])
  | succ f ih =>
    intro s v s' h
    unfold readBitsGo at h
    split at h
    · split at h
      · exact absurd h (by simp)
      · exact ih _ _ _ h
    · simp only [Option.some.injEq, Prod.mk.injEq] at h
      obtain ⟨rfl, -⟩ := h
      exact Nat.mod_lt _ (Nat.pos_pow_of_pos n (by norm_num))

theorem readBits_lt (p : List Nat) (n : Nat) (s : BitRd) (v : Nat) (s' : BitRd)
    (h : readBits p n s = some (v, s')) : v < 2 ^ n :=
  readBitsGo_lt p n (n + 1) s v s' h

theorem lor_two_pow_le (x n : Nat) : 2 ^ n ≤ x ||| 2 ^ n := by
  have h : (x ||| 2 ^ n).testBit n = true := by simp [Nat.testBit_or]
  by_contra hlt
  push_neg at hlt
  have := Nat.testBit_lt_two_pow (x := x ||| 2 ^ n) (i := n) (by omega)
  simp [this] at h

theorem lor_two_pow_lt (x n : Nat) (h : x < 2 ^ n) : x ||| 2 ^ n < 2 ^ (n + 1) := by
  have h1 : (2:Nat) ^ n < 2 ^ (n + 1) := by
    have := Nat.pow_lt_pow_succ (a := 2) (by norm_num) (n := n)
    simpa using this
  exact Nat.or_lt_two_pow (by omega) h1

/-- C7: in LZH mode, after decoding the distance-width symbol, a zero
width yields distance `readBits(1)+1 ∈ {1,2}`, and a nonzero width `db`
yields `(readBits(db) | (1<<db)) + 1 ∈ [(1<<db)+1, 2<<db]`. -/
theorem c7_lzh_distance_range (t : List HNode) (p : List Nat) (s0 s s' : BitRd)
    (db d : Nat)
    (hdec : decodeDyn 0x200 t p s0 = some (db, s))
    (hdist : lzhDistance p db s = some (d, s')) :
    (db = 0 → d = 1 ∨ d = 2) ∧
    (db ≠ 0 → (1 <<< db) + 1 ≤ d ∧ d ≤ 2 <<< db) := by
  constructor
  · rintro rfl
    unfold lzhDistance at hdist
    rw [if_pos rfl] at hdist
    cases hx : readBits p 1 s with
    | none => rw [hx] at hdist; exact absurd hdist (by simp)
    | some vs =>
      obtain ⟨x, s1⟩ := vs
      have hlt := readBits_lt p 1 s x s1 hx
      rw [hx] at hdist
      simp only [Option.some.injEq, Prod.mk.injEq] at hdist
      obtain ⟨rfl, -⟩ := hdist
      omega
  · intro hdb
    unfold lzhDistance at hdist
    rw [if_neg hdb] at hdist
    cases hx : readBits p db s with
    | none => rw [hx] at hdist; exact absurd hdist (by simp)
    | some vs =>
      obtain ⟨x, s1⟩ := vs
      have hlt := readBits_lt p db s x s1 hx
      rw [hx] at hdist
      simp only [Option.some.injEq, Prod.mk.injEq] at hdist
      obtain ⟨rfl, -⟩ := hdist
      rw [Nat.shiftLeft_eq, Nat.shiftLeft_eq, one_mul]
      have hle := lor_two_pow_le x db
      have hlt2 := lor_two_pow_lt x db hlt
      have hp : (2:Nat) ^ (db + 1) = 2 * 2 ^ db := by ring
      omega

theorem c7_lzh_distance_range_witness :
    ((0:Nat) = 0 → (1:Nat) = 1 ∨ (1:Nat) = 2) ∧
    ((2:Nat) ≠ 0 → (1 <<< 2) + 1 ≤ 6 ∧ (6:Nat) ≤ 2 <<< 2) := by
  constructor
  · intro h
    have h1 := c7_lzh_distance_range [⟨1, 0, 0x200⟩, ⟨0, 0, 0⟩] [] ⟨15, 0, 3⟩ ⟨15, 0, 2⟩
      ⟨15, 0, 1⟩ 0 1 (by decide) (by decide)
    exact h1.1 rfl
  · intro h
    have h2 := c7_lzh_distance_range [⟨1, 0, 0x200⟩, ⟨0, 0, 2⟩] [] ⟨15, 2, 3⟩ ⟨15, 1, 2⟩
      ⟨15, 0, 0⟩ 2 6 (by decide) (by decide)
    exact h2.2 (by norm_num)

theorem readBit_bitsToBR_nil (p : List Nat) : readBit p (bitsToBR []) = none := by
  simp [readBit, bitsToBR, natOfBits]

theorem readBit_bitsToBR_cons (p : List Nat) (b : Bool) (bs : List Bool) :
    readBit p (bitsToBR (b :: bs)) = some (if b then 1 else 0, bitsToBR bs) := by
  have hn : natOfBits (b :: bs) = (if b then 1 else 0) + 2 * natOfBits bs := rfl
  simp only [bitsToBR, readBit, List.length_cons, Nat.add_sub_cancel, hn]
  rw [if_neg (by omega)]
  cases b
  · simp only [Bool.false_eq_true, if_neg (by simp : ¬False)]
    simp only [Option.some.injEq, Prod.mk.injEq, BitRd.mk.injEq]
    and_intros <;> first | rfl | trivial | omega
  · simp only [if_pos trivial]
    simp only [Option.some.injEq, Prod.mk.injEq, BitRd.mk.injEq]
    and_intros <;> first | rfl | trivial | omega

theorem decodeFlatGo_eq_c2Walk (e : Nat) (t p : List Nat) : ∀ (bs : List Bool) (f i : Nat),
    t.length - i < f →
    decodeFlatGo e t p f i (bitsToBR bs) =
      (c2Walk e t i bs).map (fun x => (x.1, bitsToBR x.2)) := by
  intro bs
  induction bs with
  | nil =>
    intro f i hf
    match f, hf with
    | g+1, _ =>
      unfold decodeFlatGo
      rw [readBit_bitsToBR_nil]
      rfl
  | cons b bs ih =>
    intro f i hf
    match f, hf with
    | g+1, hf =>
      unfold decodeFlatGo c2Walk
      rw [readBit_bitsToBR_cons]
      simp only []
      by_cases h1 : t.getD (i + if b then 1 else 0) e ≠ e
      · rw [if_pos h1, if_pos h1]
        rfl
      · rw [if_neg h1, if_neg h1]
        by_cases h2 : (i + if b then 1 else 0) * 2 + 2 < t.length
        · rw [if_pos h2, if_pos h2]
          exact ih g _ (by omega)
        · rw [if_neg h2, if_neg h2]
          rfl

/-- C2 (amended): in the flat Huffman variant, decode traverses the
backing array with index `i` starting at 0; each bit first adds the bit
to the index (`i := i + bit`), the slot at that index is inspected — if
non-EMPTY its value is returned — and otherwise `i := i*2 + 2` before the
next bit.  (`c2Walk` is that traversal over an explicit bit list; the
code's decode agrees with it on every bit stream.) -/
theorem c2_amended_walk (e : Nat) (t p : List Nat) (bs : List Bool) :
    decodeFlat e t p (bitsToBR bs) =
      (c2Walk e t 0 bs).map (fun x => (x.1, bitsToBR x.2)) :=
  decodeFlatGo_eq_c2Walk e t p bs (t.length + 1) 0 (by omega)

/-- C2 counterexample: on the standard-mode length table, reading the
single bit 0, the code's decode inspects slot `0 + bit = 0` and returns
its value 0; the claim's traversal (`i := i*2 + 2 + bit` starting from 0)
inspects slot 2 first, finds EMPTY there and everywhere below, and
fails. -/
theorem c2_counterexample :
    decodeFlat 255 stdLenTable [] (bitsToBR [false]) = some (0, bitsToBR []) ∧
    c2SpecWalk 255 stdLenTable 0 [false] = none := by
  constructor
  · decide
  · decide

theorem litRun_eq_readNVals (p : List Nat) : ∀ (c : Nat) (st : DecSt), c ≤ st.dOff →
    litRun p c st =
      match readNVals p 8 c st.br with
      | none => none
      | some (vs, s') =>
        some ⟨s', placeDesc st.dest st.dOff vs, st.dOff - c,
          List.range' (st.dOff - c) c ++ st.trace⟩ := by
  intro c
  induction c with
  | zero =>
    intro st hc
    simp only [litRun, readNVals, placeDesc, Nat.sub_zero, List.range'_zero, List.nil_append]
  | succ c ih =>
    intro st hc
    unfold litRun readNVals
    cases h : readBits p 8 st.br with
    | none => rfl
    | some vsp =>
      obtain ⟨v, s'⟩ := vsp
      dsimp only
      rw [ih (wrSt ⟨s', st.dest, st.dOff, st.trace⟩ v) (by simp [wrSt]; omega)]
      simp only [wrSt]
      cases h2 : readNVals p 8 c s' with
      | none => rfl
      | some q =>
        obtain ⟨vs, s''⟩ := q
        dsimp only
        have h1 : st.dOff - (c + 1) = st.dOff - 1 - c := by omega
        have hr : List.range' (st.dOff - 1 - c) (c + 1) =
            List.range' (st.dOff - 1 - c) c ++ [st.dOff - 1] := by
          rw [List.range'_concat]
          have e1 : st.dOff - 1 - c + 1 * c = st.dOff - 1 := by omega
          rw [e1]
        rw [h1, hr, List.append_assoc]
        rfl

/-- C5: in standard mode, when the decoded length value equals 23 the
decoder reads one extra bit, sets `count := readBits(5)+15` if it is 1
and `readBits(14)+15` otherwise, fails if `count > destOffset`, and
otherwise writes `count` literal bytes (8 bits each) at consecutive
decreasing positions; when the decoded length value exceeds 23, exactly 1
is subtracted before it is used as the match length. -/
theorem c5_literal_escape (p : List Nat) (rs : Nat) (st : DecSt) (s1 s2 s3 : BitRd)
    (li v : Nat)
    (h0 : st.dOff ≠ 0)
    (h1 : readBit p st.br = some (0, s1))
    (h2 : decodeFlat 255 stdLenTable p s1 = some (li, s2))
    (h3 : readBits p (lengthBitsArr li) s2 = some (v, s3)) :
    (v + lengthAddArr li = 23 →
      stdToken p rs st =
        match readBit p s3 with
        | none => none
        | some (b2, s4) =>
          match (if b2 = 1 then readBits p 5 s4 else readBits p 14 s4) with
          | none => none
          | some (cv, s5) =>
            if cv + 15 > st.dOff then none
            else
              match readNVals p 8 (cv + 15) s5 with
              | none => none
              | some (vs, s6) =>
                some ⟨s6, placeDesc st.dest st.dOff vs, st.dOff - (cv + 15),
                  List.range' (st.dOff - (cv + 15)) (cv + 15) ++ st.trace⟩) ∧
    (v + lengthAddArr li > 23 →
      stdToken p rs st = stdMatchFrom p rs st s3 (v + lengthAddArr li - 1)) := by
  constructor
  · intro h23
    unfold stdToken
    rw [h1]
    dsimp only
    rw [if_neg (by norm_num), h2]
    dsimp only
    rw [h3]
    dsimp only
    rw [if_pos h23]
    cases h4 : readBit p s3 with
    | none => rfl
    | some bp =>
      obtain ⟨b2, s4⟩ := bp
      dsimp only
      cases h5 : (if b2 = 1 then readBits p 5 s4 else readBits p 14 s4) with
      | none => rfl
      | some cp =>
        obtain ⟨cv, s5⟩ := cp
        dsimp only
        by_cases h6 : cv + 15 > st.dOff
        · rw [if_pos h6, if_pos h6]
        · rw [if_neg h6, if_neg h6]
          exact litRun_eq_readNVals p (cv + 15) ⟨s5, st.dest, st.dOff, st.trace⟩
            (by show cv + 15 ≤ st.dOff; omega)
  · intro hgt
    unfold stdToken
    rw [h1]
    dsimp only
    rw [if_neg (by norm_num), h2]
    dsimp only
    rw [h3]
    dsimp only
    rw [if_neg (by omega), if_pos hgt]

theorem c5_literal_escape_witness :
    stdToken (List.replicate 31 0) 40 ⟨⟨31, 502, 14⟩, List.replicate 16 7, 16, []⟩ =
      some ⟨⟨16, 0, 0⟩, 7 :: List.replicate 15 0, 1, List.range' 1 15⟩ := by
  have h := (c5_literal_escape (List.replicate 31 0) 40
      ⟨⟨31, 502, 14⟩, List.replicate 16 7, 16, []⟩ ⟨31, 251, 13⟩ ⟨31, 31, 10⟩ ⟨31, 1, 6⟩ 2 15
      (by decide) (by decide) (by decide) (by decide)).1 (by decide)
  rw [h]
  decide

theorem c6Copy_shift (dist : Nat) : ∀ (n : Nat) (dest : List Nat) (dOff i : Nat), 1 ≤ dOff →
    c6Copy dOff dist (i+1) n dest = c6Copy (dOff - 1) dist i n dest := by
  intro n
  induction n with
  | zero => intros; rfl
  | succ n ih =>
    intro dest dOff i h1
    unfold c6Copy
    have e1 : dOff - 1 - (i + 1) = dOff - 1 - 1 - i := by omega
    have e2 : dOff + dist - 1 - (i + 1) = dOff - 1 + dist - 1 - i := by omega
    rw [e1, e2]
    exact ih _ dOff (i+1) h1 ▸ ih _ dOff (i+1) h1

theorem matchCopy_eq_c6Copy (dist : Nat) : ∀ (n : Nat) (st : DecSt), n ≤ st.dOff →
    matchCopy n (st.dOff + dist) st =
      ⟨st.br, c6Copy st.dOff dist 0 n st.dest, st.dOff - n,
        List.range' (st.dOff - n) n ++ st.trace⟩ := by
  intro n
  induction n with
  | zero =>
    intro st hn
    simp only [matchCopy, c6Copy, Nat.sub_zero, List.range'_zero, List.nil_append]
  | succ n ih =>
    intro st hn
    unfold matchCopy
    set w := st.dest.getD (st.dOff + dist - 1) 0 with hwdef
    have hc : st.dOff + dist - 1 = (st.dOff - 1) + dist := by omega
    rw [hc]
    have hw : wrSt st w =
        ⟨st.br, st.dest.set (st.dOff - 1) (w % 256), st.dOff - 1, (st.dOff - 1) :: st.trace⟩ :=
      rfl
    rw [hw]
    rw [ih ⟨st.br, st.dest.set (st.dOff - 1) (w % 256), st.dOff - 1, (st.dOff - 1) :: st.trace⟩
      (by show n ≤ st.dOff - 1; omega)]
    dsimp only
    have hd : st.dOff - 1 - n = st.dOff - (n + 1) := by omega
    have hcc : c6Copy st.dOff dist 0 (n + 1) st.dest =
        c6Copy (st.dOff - 1) dist 0 n (st.dest.set (st.dOff - 1) (w % 256)) := by
      have h1 : c6Copy st.dOff dist 0 (n + 1) st.dest =
          c6Copy st.dOff dist 1 n
            (st.dest.set (st.dOff - 1 - 0) (st.dest.getD (st.dOff + dist - 1 - 0) 0 % 256)) :=
        rfl
      rw [h1]
      simp only [Nat.sub_zero]
      rw [← hwdef]
      exact c6Copy_shift dist n _ st.dOff 0 (by omega)
    have hr : List.range' (st.dOff - (n + 1)) (n + 1) =
        List.range' (st.dOff - (n + 1)) n ++ [st.dOff - 1] := by
      rw [List.range'_concat]
      have e1 : st.dOff - (n + 1) + 1 * n = st.dOff - 1 := by omega
      rw [e1]
    rw [hcc, hd, hr, List.append_assoc]
    rfl

/-- C6: in standard mode, after the length and distance have been decoded,
the match step fails exactly when `distance = 0`, or `destOffset < count`,
or `destOffset + distance > rawSize`; otherwise `count` bytes are copied
from positions `destOffset+distance-1` downward to positions
`destOffset-1` downward (sequentially, so overlapping copies see earlier
writes). -/
theorem c6_match_guard (p : List Nat) (rs : Nat) (st : DecSt) (s1 s2 s3 s4 s5 : BitRd)
    (li v di dv count distance : Nat)
    (h0 : st.dOff ≠ 0)
    (h1 : readBit p st.br = some (0, s1))
    (h2 : decodeFlat 255 stdLenTable p s1 = some (li, s2))
    (h3 : readBits p (lengthBitsArr li) s2 = some (v, s3))
    (h23 : v + lengthAddArr li ≠ 23)
    (h4 : decodeFlat 255 stdDistTable p s3 = some (di, s4))
    (h5 : readBits p (distBitsArr di) s4 = some (dv, s5))
    (hcnt : count = if v + lengthAddArr li > 23 then v + lengthAddArr li - 1
      else v + lengthAddArr li)
    (hdst : distance = dv + distAddArr di) :
    (stdToken p rs st = none ↔
      (distance = 0 ∨ st.dOff < count ∨ st.dOff + distance > rs)) ∧
    (¬(distance = 0 ∨ st.dOff < count ∨ st.dOff + distance > rs) →
      stdToken p rs st =
        some ⟨s5, c6Copy st.dOff distance 0 count st.dest, st.dOff - count,
          List.range' (st.dOff - count) count ++ st.trace⟩) := by
  have hstep : stdToken p rs st = stdMatchFrom p rs st s3 count := by
    unfold stdToken
    rw [h1]
    dsimp only
    rw [if_neg (by norm_num), h2]
    dsimp only
    rw [h3]
    dsimp only
    rw [if_neg h23, hcnt]
  have hsm : stdMatchFrom p rs st s3 count =
      (if distance = 0 ∨ st.dOff < count ∨ st.dOff + distance > rs then none
       else some (matchCopy count (st.dOff + distance) ⟨s5, st.dest, st.dOff, st.trace⟩)) := by
    unfold stdMatchFrom
    rw [h4]
    dsimp only
    rw [h5]
    dsimp only
    rw [← hdst]
  rw [hstep, hsm]
  constructor
  · by_cases hg : distance = 0 ∨ st.dOff < count ∨ st.dOff + distance > rs
    · rw [if_pos hg]; simp [hg]
    · rw [if_neg hg]; simp [hg]
  · intro hg
    rw [if_neg hg]
    rw [matchCopy_eq_c6Copy distance count ⟨s5, st.dest, st.dOff, st.trace⟩
      (by show count ≤ st.dOff; omega)]

theorem c6_match_guard_witness :
    (stdToken (List.replicate 31 0) 40 ⟨⟨31, 0, 13⟩, List.replicate 40 9, 5, [5]⟩ ≠ none) ∧
    stdToken (List.replicate 31 0) 40 ⟨⟨31, 0, 13⟩, List.replicate 40 9, 5, [5]⟩ =
      some ⟨⟨31, 0, 0⟩, c6Copy 5 32 0 2 (List.replicate 40 9), 3, List.range' 3 2 ++ [5]⟩ := by
  have h := c6_match_guard (List.replicate 31 0) 40 ⟨⟨31, 0, 13⟩, List.replicate 40 9, 5, [5]⟩
    ⟨31, 0, 12⟩ ⟨31, 0, 11⟩ ⟨31, 0, 10⟩ ⟨31, 0, 9⟩ ⟨31, 0, 0⟩ 0 0 0 0 2 32
    (by decide) (by decide) (by decide) (by decide) (by decide) (by decide) (by decide)
    (by decide) (by decide)
  have h2 := h.2 (by norm_num)
  refine ⟨?_, h2⟩
  rw [h2]
  simp

theorem readNVals_len (p : List Nat) (w : Nat) : ∀ (n : Nat) (s : BitRd) (vals : List Nat)
    (s' : BitRd), readNVals p w n s = some (vals, s') → vals.length = n := by
  intro n
  induction n with
  | zero =>
    intro s vals s' h
    simp only [readNVals, Option.some.injEq, Prod.mk.injEq] at h
    obtain ⟨rfl, -⟩ := h
    rfl
  | succ n ih =>
    intro s vals s' h
    unfold readNVals at h
    cases hb : readBits p w s with
    | none => rw [hb] at h; exact absurd h (by simp)
    | some q =>
      obtain ⟨v, s1⟩ := q
      rw [hb] at h
      dsimp only at h
      cases hr : readNVals p w n s1 with
      | none => rw [hr] at h; exact absurd h (by simp)
      | some q2 =>
        obtain ⟨vs, s2⟩ := q2
        rw [hr] at h
        dsimp only at h
        simp only [Option.some.injEq, Prod.mk.injEq] at h
        obtain ⟨rfl, -⟩ := h
        simp [ih s1 vs s2 hr]

theorem readNVals_add (p : List Nat) (w : Nat) : ∀ (n1 : Nat) (n2 : Nat) (s s1 s2 : BitRd)
    (v1 v2 : List Nat), readNVals p w n1 s = some (v1, s1) →
    readNVals p w n2 s1 = some (v2, s2) →
    readNVals p w (n1 + n2) s = some (v1 ++ v2, s2) := by
  intro n1
  induction n1 with
  | zero =>
    intro n2 s s1 s2 v1 v2 h1 h2
    simp only [readNVals, Option.some.injEq, Prod.mk.injEq] at h1
    obtain ⟨rfl, rfl⟩ := h1
    simpa using h2
  | succ n ih =>
    intro n2 s s1 s2 v1 v2 h1 h2
    unfold readNVals at h1
    cases hb : readBits p w s with
    | none => rw [hb] at h1; exact absurd h1 (by simp)
    | some q =>
      obtain ⟨v, sv⟩ := q
      rw [hb] at h1
      dsimp only at h1
      cases hr : readNVals p w n sv with
      | none => rw [hr] at h1; exact absurd h1 (by simp)
      | some q2 =>
        obtain ⟨vs, s3⟩ := q2
        rw [hr] at h1
        dsimp only at h1
        simp only [Option.some.injEq, Prod.mk.injEq] at h1
        obtain ⟨rfl, rfl⟩ := h1
        have := ih n2 sv s3 s2 vs v2 hr h2
        show readNVals p w (n + 1 + n2) s = some ((v :: vs) ++ v2, s2)
        have hn : n + 1 + n2 = (n + n2) + 1 := by omega
        rw [hn]
        unfold readNVals
        rw [hb]
        dsimp only
        rw [this]
        rfl

theorem insertDynAll_append (e : Nat) : ∀ (l1 l2 : List HCode) (t : List HNode),
    insertDynAll e t (l1 ++ l2) =
      match insertDynAll e t l1 with
      | none => none
      | some t' => insertDynAll e t' l2 := by
  intro l1
  induction l1 with
  | nil => intro l2 t; rfl
  | cons c l1 ih =>
    intro l2 t
    have hL : insertDynAll e t ((c :: l1) ++ l2) =
        match insertD e t c.len c.code c.val with
        | none => none
        | some t' => insertDynAll e t' (l1 ++ l2) := rfl
    have hR : insertDynAll e t (c :: l1) =
        match insertD e t c.len c.code c.val with
        | none => none
        | some t' => insertDynAll e t' l1 := rfl
    rw [hL, hR]
    cases h : insertD e t c.len c.code c.val with
    | none => rfl
    | some t' =>
      dsimp only
      exact ih l2 t'

theorem canonGo_append (md : Nat) : ∀ (ds1 vs1 : List Nat) (code : Nat) (ds2 vs2 : List Nat),
    vs1.length = ds1.length →
    canonGo md code (ds1 ++ ds2) (vs1 ++ vs2) =
      canonGo md code ds1 vs1 ++ canonGo md (code + sumPow md ds1) ds2 vs2 := by
  intro ds1
  induction ds1 with
  | nil =>
    intro vs1 code ds2 vs2 hl
    have : vs1 = [] := List.length_eq_zero.mp hl
    subst this
    simp [canonGo, sumPow]
  | cons d ds ih =>
    intro vs1 code ds2 vs2 hl
    cases vs1 with
    | nil => exact absurd hl (by simp)
    | cons v vs =>
      have hL : canonGo md code ((d :: ds) ++ ds2) ((v :: vs) ++ vs2) =
          ⟨d, code >>> (md - d), v⟩ ::
            canonGo md (code + 2 ^ (md - d)) (ds ++ ds2) (vs ++ vs2) := rfl
      have hR : canonGo md code (d :: ds) (v :: vs) =
          ⟨d, code >>> (md - d), v⟩ :: canonGo md (code + 2 ^ (md - d)) ds vs := rfl
      rw [hL, hR, ih vs (code + 2 ^ (md - d)) ds2 vs2 (by simpa using hl)]
      have hs : code + 2 ^ (md - d) + sumPow md ds = code + sumPow md (d :: ds) := by
        simp [sumPow]
        omega
      rw [hs]
      rfl

theorem sumPow_replicate (md n depth : Nat) :
    sumPow md (List.replicate n depth) = n * 2 ^ (md - depth) := by
  induction n with
  | zero => simp [sumPow]
  | succ n ih =>
    simp only [List.replicate_succ, sumPow, List.map_cons, List.sum_cons]
    simp only [sumPow] at ih
    rw [ih]
    ring

theorem insRow_canon (p : List Nat) (cl md depth : Nat) : ∀ (n code : Nat) (t : List HNode)
    (s : BitRd) (res : List HNode × Nat × BitRd),
    insRow p cl md depth n code t s = some res →
    ∃ vals s', readNVals p cl n s = some (vals, s') ∧
      insertDynAll 0x200 t (canonGo md code (List.replicate n depth) vals) = some res.1 ∧
      res.2.1 = code + n * 2 ^ (md - depth) ∧ res.2.2 = s' := by
  intro n
  induction n with
  | zero =>
    intro code t s res h
    simp only [insRow, Option.some.injEq] at h
    refine ⟨[], s, rfl, ?_, ?_, ?_⟩
    · simp only [List.replicate, canonGo, insertDynAll]
      rw [← h]
    · rw [← h]; simp
    · rw [← h]
  | succ n ih =>
    intro code t s res h
    unfold insRow at h
    cases hb : readBits p cl s with
    | none => rw [hb] at h; exact absurd h (by simp)
    | some q =>
      obtain ⟨v, s1⟩ := q
      rw [hb] at h
      dsimp only at h
      cases hins : insertD 0x200 t depth (code >>> (md - depth)) v with
      | none => rw [hins] at h; exact absurd h (by simp)
      | some t' =>
        rw [hins] at h
        dsimp only at h
        obtain ⟨vals, s', h1, h2, h3, h4⟩ := ih (code + 2 ^ (md - depth)) t' s1 res h
        refine ⟨v :: vals, s', ?_, ?_, ?_, h4⟩
        · unfold readNVals
          rw [hb]
          dsimp only
          rw [h1]
        · have hc : canonGo md code (List.replicate (n + 1) depth) (v :: vals) =
              ⟨depth, code >>> (md - depth), v⟩ ::
                canonGo md (code + 2 ^ (md - depth)) (List.replicate n depth) vals := rfl
          rw [hc]
          have hi : insertDynAll 0x200 t
              (⟨depth, code >>> (md - depth), v⟩ ::
                canonGo md (code + 2 ^ (md - depth)) (List.replicate n depth) vals) =
              match insertD 0x200 t depth (code >>> (md - depth)) v with
              | none => none
              | some t2 =>
                insertDynAll 0x200 t2
                  (canonGo md (code + 2 ^ (md - depth)) (List.replicate n depth) vals) := rfl
          rw [hi, hins]
          exact h2
        · rw [h3]; ring

theorem insAll_canon (p : List Nat) (cl md : Nat) : ∀ (lens : List Nat) (depth code : Nat)
    (t : List HNode) (s : BitRd) (res : List HNode × BitRd),
    insAll p cl md depth lens code t s = some res →
    ∃ vals s', readNVals p cl lens.sum s = some (vals, s') ∧
      insertDynAll 0x200 t (canonGo md code (depthsOf depth lens) vals) = some res.1 ∧
      res.2 = s' := by
  intro lens
  induction lens with
  | nil =>
    intro depth code t s res h
    simp only [insAll, Option.some.injEq] at h
    refine ⟨[], s, rfl, ?_, ?_⟩
    · simp only [depthsOf, canonGo, insertDynAll]
      rw [← h]
    · rw [← h]
  | cons n rest ih =>
    intro depth code t s res h
    unfold insAll at h
    cases hrow : insRow p cl md depth n code t s with
    | none => rw [hrow] at h; exact absurd h (by simp)
    | some q =>
      obtain ⟨t', code', s'⟩ := q
      rw [hrow] at h
      dsimp only at h
      obtain ⟨vals1, s1, hv1, hi1, hc1, hs1⟩ := insRow_canon p cl md depth n code t s _ hrow
      obtain ⟨vals2, s2, hv2, hi2, hs2⟩ := ih (depth + 1) code' t' s' res h
      dsimp only at hc1 hs1
      subst hc1 hs1
      have hlen1 : vals1.length = n := readNVals_len p cl n s vals1 s' hv1
      refine ⟨vals1 ++ vals2, s2, ?_, ?_, hs2⟩
      · have hsum : (n :: rest).sum = n + rest.sum := by simp
        rw [hsum]
        exact readNVals_add p cl n rest.sum s s' s2 vals1 vals2 hv1 hv2
      · have hd : depthsOf depth (n :: rest) =
            List.replicate n depth ++ depthsOf (depth + 1) rest := rfl
        rw [hd, canonGo_append md (List.replicate n depth) vals1 code
          (depthsOf (depth + 1) rest) vals2 (by simp [hlen1])]
        rw [insertDynAll_append]
        rw [hi1]
        rw [sumPow_replicate]
        exact hi2

theorem rdLens_len (p : List Nat) (cl : Nat) : ∀ (k i : Nat) (s : BitRd) (lens : List Nat)
    (s' : BitRd), rdLens p cl i k s = some (lens, s') → lens.length = k := by
  intro k
  induction k with
  | zero =>
    intro i s lens s' h
    simp only [rdLens, Option.some.injEq, Prod.mk.injEq] at h
    obtain ⟨rfl, -⟩ := h
    rfl
  | succ k ih =>
    intro i s lens s' h
    unfold rdLens at h
    cases hb : readBits p (min (i + 1) cl) s with
    | none => rw [hb] at h; exact absurd h (by simp)
    | some q =>
      obtain ⟨v, s1⟩ := q
      rw [hb] at h
      dsimp only at h
      cases hr : rdLens p cl (i + 1) k s1 with
      | none => rw [hr] at h; exact absurd h (by simp)
      | some q2 =>
        obtain ⟨l, s2⟩ := q2
        rw [hr] at h
        dsimp only at h
        simp only [Option.some.injEq, Prod.mk.injEq] at h
        obtain ⟨rfl, -⟩ := h
        simp [ih (i + 1) s1 l s2 hr]

/-- C8: LZH table deserialisation with leaf width `cl` first reads
`maxDepth := readBits(4)` and fails when it is 0; otherwise it reads
`lengthTable[i] := readBits(min(i+1, cl))` for `i = 0..maxDepth-1`, then
reads one `cl`-bit leaf value per code and performs exactly the canonical
insert sequence: the `k`-th leaf of depth `d` is inserted as
`{d, code >> (maxDepth-d), value}` with `code` advancing by
`1 << (maxDepth-d)` after each insertion. -/
theorem c8_table_deserialisation (p : List Nat) (cl : Nat) (s : BitRd) :
    (∀ s1, readBits p 4 s = some (0, s1) → readHuffTable p cl s = none) ∧
    (∀ t sf, readHuffTable p cl s = some (t, sf) →
      ∃ md s1 lens s2 vals, readBits p 4 s = some (md, s1) ∧ md ≠ 0 ∧
        rdLens p cl 0 md s1 = some (lens, s2) ∧ lens.length = md ∧
        readNVals p cl lens.sum s2 = some (vals, sf) ∧
        insertDynAll 0x200 (mkDyn 0x200) (canonTriples md lens vals) = some t) := by
  constructor
  · intro s1 h
    unfold readHuffTable
    rw [h]
    dsimp only
    rw [if_pos rfl]
  · intro t sf h
    unfold readHuffTable at h
    cases hb : readBits p 4 s with
    | none => rw [hb] at h; exact absurd h (by simp)
    | some q =>
      obtain ⟨md, s1⟩ := q
      rw [hb] at h
      dsimp only at h
      by_cases hmd : md = 0
      · rw [if_pos hmd] at h; exact absurd h (by simp)
      · rw [if_neg hmd] at h
        cases hl : rdLens p cl 0 md s1 with
        | none => rw [hl] at h; exact absurd h (by simp)
        | some q2 =>
          obtain ⟨lens, s2⟩ := q2
          rw [hl] at h
          dsimp only at h
          obtain ⟨vals, s', hv, hi, hs⟩ := insAll_canon p cl md lens 1 0 (mkDyn 0x200) s2 (t, sf) h
          dsimp only at hi hs
          subst hs
          exact ⟨md, s1, lens, s2, vals, rfl, hmd, hl, rdLens_len p cl md 0 s1 lens s2 hl,
            hv, hi⟩

theorem c8_table_deserialisation_witness :
    readHuffTable [] 4 ⟨15, 0, 4⟩ = none ∧
    (∃ md s1 lens s2 vals, readBits [] 4 ⟨15, 81, 9⟩ = some (md, s1) ∧ md ≠ 0 ∧
      rdLens [] 4 0 md s1 = some (lens, s2) ∧ lens.length = md ∧
      readNVals [] 4 lens.sum s2 = some (vals, ⟨15, 0, 0⟩) ∧
      insertDynAll 0x200 (mkDyn 0x200) (canonTriples md lens vals) =
        some [⟨1, 0, 0x200⟩, ⟨0, 0, 2⟩]) := by
  constructor
  · exact (c8_table_deserialisation [] 4 ⟨15, 0, 4⟩).1 ⟨15, 0, 0⟩ (by decide)
  · exact (c8_table_deserialisation [] 4 ⟨15, 81, 9⟩).2 [⟨1, 0, 0x200⟩, ⟨0, 0, 2⟩] ⟨15, 0, 0⟩
      (by decide)

theorem wrSt_inv (rs : Nat) (st : DecSt) (v : Nat) (h1 : 1 ≤ st.dOff) (h2 : st.dOff ≤ rs)
    (h3 : st.trace = List.range' st.dOff (rs - st.dOff)) :
    (wrSt st v).trace = List.range' (wrSt st v).dOff (rs - (wrSt st v).dOff) ∧
    (wrSt st v).dOff ≤ rs := by
  unfold wrSt
  dsimp only
  refine ⟨?_, by omega⟩
  rw [h3]
  have he : rs - (st.dOff - 1) = (rs - st.dOff) + 1 := by omega
  rw [he, List.range'_succ]
  have hs : st.dOff - 1 + 1 = st.dOff := by omega
  rw [hs]

theorem trace_glue (dOff c rs : Nat) (hc : c ≤ dOff) (h2 : dOff ≤ rs) :
    List.range' (dOff - c) c ++ List.range' dOff (rs - dOff) =
      List.range' (dOff - c) (rs - (dOff - c)) := by
  have hx : dOff = (dOff - c) + c := by omega
  have := List.range'_append_1 (dOff - c) c (rs - dOff)
  rw [← hx] at this
  rw [this]
  congr 1
  omega

theorem litRun_inv (p : List Nat) (rs c : Nat) (st st' : DecSt) (hc : c ≤ st.dOff)
    (h2 : st.dOff ≤ rs) (h3 : st.trace = List.range' st.dOff (rs - st.dOff))
    (h : litRun p c st = some st') :
    st'.trace = List.range' st'.dOff (rs - st'.dOff) ∧ st'.dOff ≤ rs := by
  rw [litRun_eq_readNVals p c st hc] at h
  cases hr : readNVals p 8 c st.br with
  | none => rw [hr] at h; exact absurd h (by simp)
  | some q =>
    obtain ⟨vs, s'⟩ := q
    rw [hr] at h
    dsimp only at h
    simp only [Option.some.injEq] at h
    subst h
    dsimp only
    refine ⟨?_, by omega⟩
    rw [h3, trace_glue st.dOff c rs hc h2]

theorem matchCopy_inv (rs dist c : Nat) (st : DecSt) (hc : c ≤ st.dOff)
    (h2 : st.dOff ≤ rs) (h3 : st.trace = List.range' st.dOff (rs - st.dOff)) :
    (matchCopy c (st.dOff + dist) st).trace =
      List.range' (matchCopy c (st.dOff + dist) st).dOff
        (rs - (matchCopy c (st.dOff + dist) st).dOff) ∧
    (matchCopy c (st.dOff + dist) st).dOff ≤ rs := by
  rw [matchCopy_eq_c6Copy dist c st hc]
  dsimp only
  refine ⟨?_, by omega⟩
  rw [h3, trace_glue st.dOff c rs hc h2]

theorem stdToken_inv (p : List Nat) (rs : Nat) (st st' : DecSt) (h0 : st.dOff ≠ 0)
    (h2 : st.dOff ≤ rs) (h3 : st.trace = List.range' st.dOff (rs - st.dOff))
    (h : stdToken p rs st = some st') :
    st'.trace = List.range' st'.dOff (rs - st'.dOff) ∧ st'.dOff ≤ rs := by
  unfold stdToken at h
  cases hb : readBit p st.br with
  | none => rw [hb] at h; exact absurd h (by simp)
  | some q =>
    obtain ⟨b, s1⟩ := q
    rw [hb] at h
    dsimp only at h
    by_cases hb1 : b = 1
    · rw [if_pos hb1] at h
      cases hv : readBits p 8 s1 with
      | none => rw [hv] at h; exact absurd h (by simp)
      | some q2 =>
        obtain ⟨v, s2⟩ := q2
        rw [hv] at h
        dsimp only at h
        simp only [Option.some.injEq] at h
        subst h
        exact wrSt_inv rs ⟨s2, st.dest, st.dOff, st.trace⟩ v
          (by show 1 ≤ st.dOff; omega) h2 h3
    · rw [if_neg hb1] at h
      cases hl : decodeFlat 255 stdLenTable p s1 with
      | none => rw [hl] at h; exact absurd h (by simp)
      | some q2 =>
        obtain ⟨li, s2⟩ := q2
        rw [hl] at h
        dsimp only at h
        cases hv : readBits p (lengthBitsArr li) s2 with
        | none => rw [hv] at h; exact absurd h (by simp)
        | some q3 =>
          obtain ⟨v, s3⟩ := q3
          rw [hv] at h
          dsimp only at h
          by_cases h23 : v + lengthAddArr li = 23
          · rw [if_pos h23] at h
            cases hb2 : readBit p s3 with
            | none => rw [hb2] at h; exact absurd h (by simp)
            | some q4 =>
              obtain ⟨b2, s4⟩ := q4
              rw [hb2] at h
              dsimp only at h
              cases hc5 : (if b2 = 1 then readBits p 5 s4 else readBits p 14 s4) with
              | none => rw [hc5] at h; exact absurd h (by simp)
              | some q5 =>
                obtain ⟨cv, s5⟩ := q5
                rw [hc5] at h
                dsimp only at h
                by_cases hgt : cv + 15 > st.dOff
                · rw [if_pos hgt] at h; exact absurd h (by simp)
                · rw [if_neg hgt] at h
                  exact litRun_inv p rs (cv + 15) ⟨s5, st.dest, st.dOff, st.trace⟩ st'
                    (by show cv + 15 ≤ st.dOff; omega) h2 h3 h
          · rw [if_neg h23] at h
            unfold stdMatchFrom at h
            cases hd : decodeFlat 255 stdDistTable p s3 with
            | none => rw [hd] at h; exact absurd h (by simp)
            | some q4 =>
              obtain ⟨di, s4⟩ := q4
              rw [hd] at h
              dsimp only at h
              cases hv2 : readBits p (distBitsArr di) s4 with
              | none => rw [hv2] at h; exact absurd h (by simp)
              | some q5 =>
                obtain ⟨dv, s5⟩ := q5
                rw [hv2] at h
                dsimp only at h
                by_cases hg : dv + distAddArr di = 0 ∨
                    st.dOff < (if v + lengthAddArr li > 23 then v + lengthAddArr li - 1
                      else v + lengthAddArr li) ∨
                    st.dOff + (dv + distAddArr di) > rs
                · rw [if_pos hg] at h; exact absurd h (by simp)
                · rw [if_neg hg] at h
                  simp only [Option.some.injEq] at h
                  subst h
                  exact matchCopy_inv rs (dv + distAddArr di) _
                    ⟨s5, st.dest, st.dOff, st.trace⟩
                    (by show (if v + lengthAddArr li > 23 then v + lengthAddArr li - 1
                      else v + lengthAddArr li) ≤ st.dOff; omega) h2 h3

theorem stdLoop_inv (p : List Nat) (rs : Nat) : ∀ (f : Nat) (st st' : DecSt),
    st.dOff ≤ rs → st.trace = List.range' st.dOff (rs - st.dOff) →
    stdLoop p rs f st = some st' →
    st'.trace = List.range' st'.dOff (rs - st'.dOff) ∧ st'.dOff ≤ rs := by
  intro f
  induction f with
  | zero => intro st st' _ _ h; exact absurd h (by simp [stdLoop])
  | succ f ih =>
    intro st st' h2 h3 h
    unfold stdLoop at h
    by_cases h0 : st.dOff = 0
    · rw [if_pos h0] at h
      simp only [Option.some.injEq] at h
      subst h
      exact ⟨h3, h2⟩
    · rw [if_neg h0] at h
      cases ht : stdToken p rs st with
      | none => rw [ht] at h; exact absurd h (by simp)
      | some st1 =>
        rw [ht] at h
        dsimp only at h
        obtain ⟨k3, k2⟩ := stdToken_inv p rs st st1 h0 h2 h3 ht
        exact ih st1 st' k2 k3 h

theorem lzhTokens_inv (p : List Nat) (rs : Nat) (lt dt : List HNode) : ∀ (k : Nat)
    (st st' : DecSt), st.dOff ≤ rs → st.trace = List.range' st.dOff (rs - st.dOff) →
    lzhTokens p rs lt dt k st = some st' →
    st'.trace = List.range' st'.dOff (rs - st'.dOff) ∧ st'.dOff ≤ rs := by
  intro k
  induction k with
  | zero =>
    intro st st' h2 h3 h
    simp only [lzhTokens, Option.some.injEq] at h
    subst h
    exact ⟨h3, h2⟩
  | succ k ih =>
    intro st st' h2 h3 h
    unfold lzhTokens at h
    cases hdec : decodeDyn 0x200 lt p st.br with
    | none => rw [hdec] at h; exact absurd h (by simp)
    | some q =>
      obtain ⟨cnt, s1⟩ := q
      rw [hdec] at h
      dsimp only at h
      by_cases hlit : cnt &&& 0x100 ≠ 0
      · rw [if_pos hlit] at h
        by_cases h0 : st.dOff = 0
        · rw [if_pos h0] at h; exact absurd h (by simp)
        · rw [if_neg h0] at h
          obtain ⟨k3, k2⟩ := wrSt_inv rs ⟨s1, st.dest, st.dOff, st.trace⟩ cnt
            (by show 1 ≤ st.dOff; omega) h2 h3
          exact ih _ st' k2 k3 h
      · rw [if_neg hlit] at h
        cases hdb : decodeDyn 0x200 dt p s1 with
        | none => rw [hdb] at h; exact absurd h (by simp)
        | some q2 =>
          obtain ⟨db, s2⟩ := q2
          rw [hdb] at h
          dsimp only at h
          cases hdist : lzhDistance p db s2 with
          | none => rw [hdist] at h; exact absurd h (by simp)
          | some q3 =>
            obtain ⟨dist, s3⟩ := q3
            rw [hdist] at h
            dsimp only at h
            by_cases hg : st.dOff < cnt + 3 ∨ st.dOff + dist > rs
            · rw [if_pos hg] at h; exact absurd h (by simp)
            · rw [if_neg hg] at h
              obtain ⟨k3, k2⟩ := matchCopy_inv rs dist (cnt + 3)
                ⟨s3, st.dest, st.dOff, st.trace⟩ (by show cnt + 3 ≤ st.dOff; omega) h2 h3
              exact ih _ st' k2 k3 h

theorem lzhBlocks_inv (p : List Nat) (rs : Nat) : ∀ (f : Nat) (st st' : DecSt),
    st.dOff ≤ rs → st.trace = List.range' st.dOff (rs - st.dOff) →
    lzhBlocks p rs f st = some st' →
    st'.trace = List.range' st'.dOff (rs - st'.dOff) ∧ st'.dOff ≤ rs := by
  intro f
  induction f with
  | zero => intro st st' _ _ h; exact absurd h (by simp [lzhBlocks])
  | succ f ih =>
    intro st st' h2 h3 h
    unfold lzhBlocks at h
    cases h1 : readHuffTable p 9 st.br with
    | none => rw [h1] at h; exact absurd h (by simp)
    | some q1 =>
      obtain ⟨lt, s1⟩ := q1
      rw [h1] at h
      dsimp only at h
      cases hq2 : readHuffTable p 4 s1 with
      | none => rw [hq2] at h; exact absurd h (by simp)
      | some q2 =>
        obtain ⟨dt, s2⟩ := q2
        rw [hq2] at h
        dsimp only at h
        cases hq3 : readBits p 16 s2 with
        | none => rw [hq3] at h; exact absurd h (by simp)
        | some q3 =>
          obtain ⟨itm, s3⟩ := q3
          rw [hq3] at h
          dsimp only at h
          cases hq4 : lzhTokens p rs lt dt (itm + 1) ⟨s3, st.dest, st.dOff, st.trace⟩ with
          | none => rw [hq4] at h; exact absurd h (by simp)
          | some st1 =>
            rw [hq4] at h
            dsimp only at h
            obtain ⟨k3, k2⟩ := lzhTokens_inv p rs lt dt (itm + 1)
              ⟨s3, st.dest, st.dOff, st.trace⟩ st1 h2 h3 hq4
            cases hq5 : readBit p st1.br with
            | none => rw [hq5] at h; exact absurd h (by simp)
            | some q5 =>
              obtain ⟨b, s4⟩ := q5
              rw [hq5] at h
              dsimp only at h
              by_cases hb1 : b = 1
              · rw [if_pos hb1] at h
                exact ih ⟨s4, st1.dest, st1.dOff, st1.trace⟩ st' k2 k3 h
              · rw [if_neg hb1] at h
                simp only [Option.some.injEq] at h
                subst h
                exact ⟨k3, k2⟩

/-- C9: for every decompress core run that returns successfully (either
mode), the chronological sequence of output writes has strictly
decreasing indices, every index in `[0, rawSize)` is written exactly
once, no index outside `[0, rawSize)` is written, and exactly `rawSize`
writes are performed.  (`st.trace` records the written indices, most
recent first, so `st.trace.reverse` is chronological order.) -/
theorem c9_write_once (p : List Nat) (rs ps : Nat) (lzh : Bool) (fuel : Nat)
    (raw0 : List Nat) (st : DecSt)
    (h : coreDecode p rs ps lzh fuel raw0 = some st) :
    st.trace.reverse.Pairwise (fun a b => a > b) ∧
    (∀ j, j < rs → st.trace.reverse.count j = 1) ∧
    (∀ j, j ∈ st.trace.reverse → j < rs) ∧
    st.trace.length = rs := by
  have htr : st.trace = List.range' 0 rs := by
    simp only [coreDecode] at h
    have hinv0d : (⟨initBR p ps, raw0, rs, []⟩ : DecSt).trace =
        List.range' (⟨initBR p ps, raw0, rs, []⟩ : DecSt).dOff
          (rs - (⟨initBR p ps, raw0, rs, []⟩ : DecSt).dOff) := by
      show ([] : List Nat) = List.range' rs (rs - rs)
      rw [Nat.sub_self, List.range'_zero]
    cases hm : (if lzh then lzhBlocks p rs fuel ⟨initBR p ps, raw0, rs, []⟩
        else stdLoop p rs fuel ⟨initBR p ps, raw0, rs, []⟩) with
    | none => rw [hm] at h; exact absurd h (by simp)
    | some st1 =>
      rw [hm] at h
      dsimp only at h
      by_cases hz : st1.dOff ≠ 0
      · rw [if_pos hz] at h; exact absurd h (by simp)
      · rw [if_neg hz] at h
        simp only [Option.some.injEq] at h
        subst h
        push_neg at hz
        have hinv : st1.trace = List.range' st1.dOff (rs - st1.dOff) ∧ st1.dOff ≤ rs := by
          cases lzh with
          | false =>
            rw [if_neg (by simp)] at hm
            exact stdLoop_inv p rs fuel ⟨initBR p ps, raw0, rs, []⟩ st1
              (by show rs ≤ rs; omega) hinv0d hm
          | true =>
            rw [if_pos rfl] at hm
            exact lzhBlocks_inv p rs fuel ⟨initBR p ps, raw0, rs, []⟩ st1
              (by show rs ≤ rs; omega) hinv0d hm
        rw [hinv.1, hz, Nat.sub_zero]
  refine ⟨?_, ?_, ?_, ?_⟩
  · rw [htr, List.pairwise_reverse]
    exact List.pairwise_lt_range' 0 rs
  · intro j hj
    rw [htr, List.count_reverse]
    refine List.count_eq_one_of_mem (List.nodup_range' 0 rs) ?_
    rw [List.mem_range']
    exact ⟨j, hj, by omega⟩
  · intro j hj
    rw [htr, List.mem_reverse, List.mem_range'] at hj
    obtain ⟨i, hi, rfl⟩ := hj
    omega
  · rw [htr, List.length_range']

theorem c9_write_once_witness :
    ([0] : List Nat).reverse.Pairwise (fun a b => a > b) ∧
    (∀ j, j < 1 → ([0] : List Nat).reverse.count j = 1) ∧
    (∀ j, j ∈ ([0] : List Nat).reverse → j < 1) ∧
    ([0] : List Nat).length = 1 := by
  have h := c9_write_once exRun1 1 6 false 2 [0x99] ⟨⟨14, 0, 7⟩, [0x41], 0, [0]⟩ (by decide)
  exact h

theorem lowBits_length (code : Nat) : ∀ l : Nat, (lowBits l code).length = l := by
  intro l
  induction l with
  | zero => rfl
  | succ l ih => simp [lowBits, ih]

theorem lowBits_ne_nil (code l : Nat) (h : 1 ≤ l) : lowBits l code ≠ [] := by
  cases l with
  | zero => omega
  | succ l => simp [lowBits]

theorem getLastD_irrel {α : Type} (l : List α) (a b : α) (h : l ≠ []) :
    l.getLastD a = l.getLastD b := by
  cases l with
  | nil => exact absurd rfl h
  | cons x xs => rw [List.getLastD_cons, List.getLastD_cons]

theorem getLastD_mem {α : Type} : ∀ (l : List α) (a : α), l ≠ [] → l.getLastD a ∈ l := by
  intro l
  induction l with
  | nil => intro a h; exact absurd rfl h
  | cons x xs ih =>
    intro a _
    rw [List.getLastD_cons]
    cases hxs : xs with
    | nil => simp
    | cons y ys =>
      subst hxs
      have hmem := ih x (by simp)
      exact List.mem_cons_of_mem x hmem

theorem insertFlatGo_eq_B (e code val : Nat) : ∀ (j i : Nat) (t : List Nat),
    insertFlatGo e code val j i t = insertFlatB e val (lowBits j code) i t := by
  intro j
  induction j with
  | zero => intro i t; rfl
  | succ j ih =>
    intro i t
    show insertFlatGo e code val (j+1) i t =
      insertFlatB e val (code.testBit j :: lowBits j code) i t
    unfold insertFlatGo insertFlatB
    simp only [stepF]
    by_cases h1 : t.getD (if code.testBit j then i + 1 else i) e ≠ e
    · rw [if_pos h1, if_pos h1]
    · rw [if_neg h1, if_neg h1]
      cases j with
      | zero => rfl
      | succ j' =>
        have he : (lowBits (j' + 1) code).isEmpty = false := rfl
        rw [he]
        rw [if_neg (by omega : ¬(j' + 1 = 0)), if_neg (by simp : ¬(false = true))]
        exact ih _ _

theorem pathB_length (bs : List Bool) : ∀ i : Nat, (pathB i bs).length = bs.length := by
  induction bs with
  | nil => intro i; rfl
  | cons b bs ih => intro i; simp [pathB, ih]

theorem insertFlatB_fail (e val : Nat) : ∀ (bs : List Bool) (i : Nat) (t : List Nat),
    (∃ n ∈ pathB i bs, t.getD n e ≠ e) → insertFlatB e val bs i t = none := by
  intro bs
  induction bs with
  | nil =>
    rintro i t ⟨n, hn, -⟩
    exact absurd hn (by simp [pathB])
  | cons b bs ih =>
    rintro i t ⟨n, hn, hne⟩
    unfold insertFlatB
    by_cases h1 : t.getD (stepF i b) e ≠ e
    · rw [if_pos h1]
    · rw [if_neg h1]
      rcases List.mem_cons.mp hn with rfl | hn'
      · exact absurd (not_not.mp h1) hne
      · cases bs with
        | nil => exact absurd hn' (by simp [pathB])
        | cons b2 bs2 =>
          rw [if_neg (by simp)]
          exact ih _ _ ⟨n, hn', hne⟩

theorem insertFlatB_ok (e val : Nat) : ∀ (bs : List Bool) (i : Nat) (t t' : List Nat),
    bs ≠ [] → insertFlatB e val bs i t = some t' →
    (∀ n ∈ pathB i bs, t.getD n e = e) ∧ t' = t.set (leafB i bs) val := by
  intro bs
  induction bs with
  | nil => intro i t t' hne; exact absurd rfl hne
  | cons b bs ih =>
    intro i t t' _ h
    unfold insertFlatB at h
    by_cases h1 : t.getD (stepF i b) e ≠ e
    · rw [if_pos h1] at h; exact absurd h (by simp)
    · rw [if_neg h1] at h
      push_neg at h1
      cases bs with
      | nil =>
        simp only [List.isEmpty_nil, if_true] at h
        simp only [Option.some.injEq] at h
        refine ⟨?_, h.symm⟩
        intro n hn
        have : n = stepF i b := by simpa [pathB] using hn
        rw [this]
        exact h1
      | cons b2 bs2 =>
        rw [if_neg (by simp)] at h
        obtain ⟨hall, hset⟩ := ih (stepF i b * 2 + 2) t t' (by simp) h
        constructor
        · intro n hn
          rcases List.mem_cons.mp hn with rfl | hn'
          · exact h1
          · exact hall n hn'
        · rw [hset]
          have hleaf : leafB (stepF i b * 2 + 2) (b2 :: bs2) = leafB i (b :: b2 :: bs2) := by
            show (pathB (stepF i b * 2 + 2) (b2 :: bs2)).getLastD (stepF i b * 2 + 2) =
              (pathB i (b :: b2 :: bs2)).getLastD i
            have hp : pathB i (b :: b2 :: bs2) =
                stepF i b :: pathB (stepF i b * 2 + 2) (b2 :: bs2) := rfl
            rw [hp, List.getLastD_cons]
            exact getLastD_irrel _ _ _ (by simp [pathB])
          rw [hleaf]

theorem pathB_bound : ∀ (bs : List Bool) (i : Nat), ∀ n ∈ pathB i bs,
    n + 3 ≤ 2 ^ (bs.length - 1) * (i + 4) := by
  intro bs
  induction bs with
  | nil => intro i n hn; exact absurd hn (by simp [pathB])
  | cons b bs ih =>
    intro i n hn
    rcases List.mem_cons.mp hn with rfl | hn'
    · have h1 : stepF i b ≤ i + 1 := by unfold stepF; split <;> omega
      have h2 : (0:Nat) < 2 ^ ((b :: bs).length - 1) := Nat.pos_pow_of_pos _ (by norm_num)
      have h3 : i + 4 ≤ 2 ^ ((b :: bs).length - 1) * (i + 4) := Nat.le_mul_of_pos_left _ h2
      omega
    · have hbs : bs ≠ [] := by
        intro hb
        rw [hb] at hn'
        exact absurd hn' (by simp [pathB])
      have hb1 : 1 ≤ bs.length := by
        cases bs with
        | nil => exact absurd rfl hbs
        | cons x xs => simp
      have := ih (stepF i b * 2 + 2) n hn'
      have h1 : stepF i b ≤ i + 1 := by unfold stepF; split <;> omega
      have h2 : stepF i b * 2 + 2 + 4 ≤ 2 * (i + 4) := by omega
      have h3 : n + 3 ≤ 2 ^ (bs.length - 1) * (2 * (i + 4)) :=
        le_trans this (Nat.mul_le_mul_left _ h2)
      have h4 : 2 ^ (bs.length - 1) * 2 = 2 ^ bs.length := by
        conv_rhs => rw [← Nat.sub_add_cancel hb1]
        rw [pow_succ]
      calc n + 3 ≤ 2 ^ (bs.length - 1) * (2 * (i + 4)) := h3
        _ = 2 ^ (bs.length - 1) * 2 * (i + 4) := by ring
        _ = 2 ^ bs.length * (i + 4) := by rw [h4]
        _ = 2 ^ ((b :: bs).length - 1) * (i + 4) := by simp

theorem getD_set_ne {α : Type} (t : List α) (q m : Nat) (v d : α) (h : q ≠ m) :
    (t.set q v).getD m d = t.getD m d := by
  rw [List.getD_eq_getD_get?, List.getD_eq_getD_get?, List.get?_set_ne v t h]

theorem getD_set_self {α : Type} (t : List α) (q : Nat) (v d : α) (h : q < t.length) :
    (t.set q v).getD q d = v := by
  rw [List.getD_eq_getElem _ _ (by simpa using h)]
  exact List.getElem_set_self _

theorem leafB_cons (i : Nat) (b b2 : Bool) (bs : List Bool) :
    leafB (stepF i b * 2 + 2) (b2 :: bs) = leafB i (b :: b2 :: bs) := by
  show (pathB (stepF i b * 2 + 2) (b2 :: bs)).getLastD (stepF i b * 2 + 2) =
    (pathB i (b :: b2 :: bs)).getLastD i
  have hp : pathB i (b :: b2 :: bs) =
      stepF i b :: pathB (stepF i b * 2 + 2) (b2 :: bs) := rfl
  rw [hp, List.getLastD_cons]
  exact getLastD_irrel _ _ _ (by simp [pathB])

theorem pathB_append : ∀ (bs1 : List Bool) (i : Nat) (bs2 : List Bool), bs1 ≠ [] →
    pathB i (bs1 ++ bs2) = pathB i bs1 ++ pathB (leafB i bs1 * 2 + 2) bs2 := by
  intro bs1
  induction bs1 with
  | nil => intro i bs2 h; exact absurd rfl h
  | cons b bs ih =>
    intro i bs2 _
    cases bs with
    | nil =>
      show pathB i (b :: bs2) = pathB i [b] ++ pathB (leafB i [b] * 2 + 2) bs2
      have h1 : leafB i [b] = stepF i b := rfl
      rw [h1]
      rfl
    | cons b2 bs2' =>
      have hp : pathB i ((b :: b2 :: bs2') ++ bs2) =
          stepF i b :: pathB (stepF i b * 2 + 2) ((b2 :: bs2') ++ bs2) := rfl
      rw [hp, ih (stepF i b * 2 + 2) bs2 (by simp), leafB_cons]
      rfl

theorem leafB_mem (i : Nat) (bs : List Bool) (h : bs ≠ []) : leafB i bs ∈ pathB i bs := by
  unfold leafB
  apply getLastD_mem
  cases bs with
  | nil => exact absurd rfl h
  | cons b bs2 => simp [pathB]

theorem leafB_lt_table (D : Nat) (bs : List Bool) (h1 : bs ≠ []) (h2 : bs.length ≤ D) :
    leafB 0 bs < (2 <<< D) - 2 := by
  have hb := pathB_bound bs 0 (leafB 0 bs) (leafB_mem 0 bs h1)
  have hl : 1 ≤ bs.length := by
    cases bs with
    | nil => exact absurd rfl h1
    | cons x xs => simp
  have hp : 2 ^ (bs.length - 1) * (0 + 4) = 2 ^ (bs.length + 1) := by
    have : bs.length + 1 = (bs.length - 1) + 2 := by omega
    rw [this, pow_add]
    ring
  rw [hp] at hb
  have hmono : (2:Nat) ^ (bs.length + 1) ≤ 2 ^ (D + 1) :=
    Nat.pow_le_pow_right (by norm_num) (by omega)
  have hD : (2 <<< D) = 2 ^ (D + 1) := by
    rw [Nat.shiftLeft_eq]
    rw [pow_succ]
    ring
  omega

/-- Chain invariant for the flat variant: a successful insert chain keeps
the table length, preserves non-EMPTY entries, and leaves every inserted
code's leaf slot non-EMPTY. -/
theorem insertFlatAll_stored (D e : Nat) : ∀ (cs : List HCode) (t0 t : List Nat),
    t0.length = (2 <<< D) - 2 →
    insertFlatAll D e t0 cs = some t →
    t.length = (2 <<< D) - 2 ∧
    (∀ m, t0.getD m e ≠ e → t.getD m e ≠ e) ∧
    (∀ c ∈ cs, 1 ≤ c.len → t.getD (leafB 0 (lowBits c.len c.code)) e ≠ e) := by
  intro cs
  induction cs with
  | nil =>
    intro t0 t hlen h
    simp only [insertFlatAll, Option.some.injEq] at h
    subst h
    exact ⟨hlen, fun m hm => hm, by simp⟩
  | cons c cs ih =>
    intro t0 t hlen h
    unfold insertFlatAll at h
    cases hi : insertFlat D e t0 c.len c.code c.val with
    | none => rw [hi] at h; exact absurd h (by simp)
    | some t1 =>
      rw [hi] at h
      dsimp only at h
      unfold insertFlat at hi
      by_cases hg : c.val = e ∨ c.len > D
      · rw [if_pos hg] at hi; exact absurd hi (by simp)
      · rw [if_neg hg] at hi
        push_neg at hg
        obtain ⟨hvne, hlD⟩ := hg
        rw [insertFlatGo_eq_B] at hi
        by_cases hl0 : c.len = 0
        · have h10 : t1 = t0 := by
            rw [hl0] at hi
            simp only [lowBits, insertFlatB, Option.some.injEq] at hi
            exact hi.symm
          subst h10
          obtain ⟨hL, hP, hS⟩ := ih t1 t hlen h
          refine ⟨hL, hP, ?_⟩
          intro c' hc' hc'l
          rcases List.mem_cons.mp hc' with rfl | hmem
          · omega
          · exact hS c' hmem hc'l
        · have hbs : lowBits c.len c.code ≠ [] := lowBits_ne_nil _ _ (by omega)
          obtain ⟨hall, hset⟩ := insertFlatB_ok e c.val (lowBits c.len c.code) 0 t0 t1 hbs hi
          have hleaf_lt : leafB 0 (lowBits c.len c.code) < (2 <<< D) - 2 :=
            leafB_lt_table D _ hbs (by rw [lowBits_length]; omega)
          have hlen1 : t1.length = (2 <<< D) - 2 := by
            rw [hset, List.length_set, hlen]
          obtain ⟨hL, hP, hS⟩ := ih t1 t hlen1 h
          have hnew : t1.getD (leafB 0 (lowBits c.len c.code)) e ≠ e := by
            rw [hset, getD_set_self t0 _ c.val e (by omega)]
            exact hvne
          refine ⟨hL, ?_, ?_⟩
          · intro m hm
            apply hP
            rw [hset]
            by_cases hqm : leafB 0 (lowBits c.len c.code) = m
            · exact absurd (hqm ▸ hall _ (leafB_mem 0 _ hbs)) hm
            · rw [getD_set_ne t0 _ m c.val e hqm]
              exact hm
          · intro c' hc' hc'l
            rcases List.mem_cons.mp hc' with rfl | hmem
            · exact hP _ hnew
            · exact hS c' hmem hc'l

/-- Flat variant: inserting any code that an already (successfully)
inserted code is a prefix of — equal codes included — fails. -/
theorem flat_prefix_fail (D e : Nat) (cs : List HCode) (t : List Nat) (cp c : HCode)
    (hall : insertFlatAll D e (mkFlat D e) cs = some t) (hmem : cp ∈ cs)
    (hlen : 1 ≤ cp.len) (hpfx : codePfx cp c) :
    insertFlat D e t c.len c.code c.val = none := by
  unfold insertFlat
  by_cases hg : c.val = e ∨ c.len > D
  · rw [if_pos hg]
  · rw [if_neg hg]
    rw [insertFlatGo_eq_B]
    apply insertFlatB_fail
    obtain ⟨hle, htake⟩ := hpfx
    have hstored := (insertFlatAll_stored D e cs (mkFlat D e) t
      (by simp [mkFlat]) hall).2.2 cp hmem hlen
    refine ⟨leafB 0 (lowBits cp.len cp.code), ?_, hstored⟩
    have hsplit : lowBits c.len c.code =
        lowBits cp.len cp.code ++ (lowBits c.len c.code).drop cp.len := by
      rw [htake, List.take_append_drop]
    rw [hsplit, pathB_append (lowBits cp.len cp.code) 0 _ (lowBits_ne_nil _ _ hlen)]
    exact List.mem_append_left _ (leafB_mem 0 _ (lowBits_ne_nil _ _ hlen))

theorem insertDGo_eq_B (e val code : Nat) : ∀ (cb i : Nat) (t : List HNode),
    insertDGo e val code cb i t = insertDB e val (lowBits cb code) i t := by
  intro cb
  induction cb with
  | zero => intro i t; rfl
  | succ cb ih =>
    intro i t
    show insertDGo e val code (cb+1) i t =
      insertDB e val (code.testBit cb :: lowBits cb code) i t
    unfold insertDGo insertDB
    by_cases h1 : i = t.length
    · rw [if_pos h1, if_pos h1]
      exact ih _ _
    · rw [if_neg h1, if_neg h1]
      by_cases h2 : (getN e t i).val ≠ e
      · rw [if_pos h2, if_pos h2]
      · rw [if_neg h2, if_neg h2]
        by_cases h3 : hsub (getN e t i) (code.testBit cb) = 0
        · rw [if_pos h3, if_pos h3]
          exact ih _ _
        · rw [if_neg h3, if_neg h3]
          exact ih _ _

theorem pushChainB_length (e val : Nat) : ∀ (bs : List Bool) (base : Nat),
    (pushChainB e val bs base).length = bs.length + 1 := by
  intro bs
  induction bs with
  | nil => intro base; rfl
  | cons b bs ih => intro base; simp [pushChainB, ih]

theorem insertDB_push (e val : Nat) : ∀ (bs : List Bool) (t : List HNode),
    insertDB e val bs t.length t = some (t ++ pushChainB e val bs t.length) := by
  intro bs
  induction bs with
  | nil => intro t; simp [insertDB, pushChainB]
  | cons b bs ih =>
    intro t
    show insertDB e val (b :: bs) t.length t = _
    unfold insertDB pushChainB
    rw [if_pos rfl]
    have hlen : (t ++ [(⟨if b then 0 else t.length + 1, if b then t.length + 1 else 0, e⟩ :
        HNode)]).length = t.length + 1 := by simp
    have := ih (t ++ [⟨if b then 0 else t.length + 1, if b then t.length + 1 else 0, e⟩])
    rw [hlen] at this
    rw [this, List.append_assoc]
    rfl

theorem getN_append (e : Nat) (t l : List HNode) (j : Nat) (h : j < t.length) :
    getN e (t ++ l) j = getN e t j :=
  List.getD_append t l _ j h

theorem getN_append_right (e : Nat) (t l : List HNode) (j : Nat) (h : t.length ≤ j) :
    getN e (t ++ l) j = getN e l (j - t.length) :=
  List.getD_append_right t l _ j h

theorem setSub_length (t : List HNode) (i : Nat) (b : Bool) (x : Nat) :
    (setSub t i b x).length = t.length := by
  unfold setSub
  cases t.get? i <;> simp

theorem getN_setSub_ne (e : Nat) (t : List HNode) (i j : Nat) (b : Bool) (x : Nat)
    (h : j ≠ i) : getN e (setSub t i b x) j = getN e t j := by
  unfold setSub
  cases t.get? i with
  | none => rfl
  | some n =>
    unfold getN
    exact getD_set_ne t i j _ _ (fun he => h he.symm)

theorem getN_setSub_self (e : Nat) (t : List HNode) (i : Nat) (b : Bool) (x : Nat)
    (h : i < t.length) :
    getN e (setSub t i b x) i =
      (if b then ⟨(getN e t i).sub0, x, (getN e t i).val⟩
       else ⟨x, (getN e t i).sub1, (getN e t i).val⟩) := by
  unfold setSub
  cases hg : t.get? i with
  | none =>
    have := List.get?_eq_none.mp hg
    omega
  | some n =>
    have hn : getN e t i = n := by
      unfold getN
      rw [List.getD_eq_getD_get?, hg]
      rfl
    unfold getN
    rw [getD_set_self t i _ _ h]
    rw [show t.getD i (⟨0, 0, e⟩ : HNode) = n from hn]

theorem insertDB_mono (e val : Nat) : ∀ (bs : List Bool) (i : Nat) (t t' : List HNode),
    insertDB e val bs i t = some t' →
    t.length ≤ t'.length ∧
    ∀ j, j < t.length → (getN e t' j).val = (getN e t j).val ∧
      ∀ b, hsub (getN e t j) b ≠ 0 → hsub (getN e t' j) b = hsub (getN e t j) b := by
  intro bs
  induction bs with
  | nil =>
    intro i t t' h
    unfold insertDB at h
    by_cases h1 : i = t.length
    · rw [if_pos h1] at h
      simp only [Option.some.injEq] at h
      subst h
      refine ⟨by simp, ?_⟩
      intro j hj
      rw [getN_append e t _ j hj]
      exact ⟨rfl, fun b _ => rfl⟩
    · rw [if_neg h1] at h
      exact absurd h (by simp)
  | cons b bs ih =>
    intro i t t' h
    unfold insertDB at h
    by_cases h1 : i = t.length
    · rw [if_pos h1] at h
      obtain ⟨hl, hpres⟩ := ih _ _ _ h
      have hlap : (t ++ [(⟨if b then 0 else t.length + 1, if b then t.length + 1 else 0, e⟩ :
          HNode)]).length = t.length + 1 := by simp
      refine ⟨by omega, ?_⟩
      intro j hj
      obtain ⟨hv, hs⟩ := hpres j (by omega)
      rw [getN_append e t _ j hj] at hv hs
      exact ⟨hv, hs⟩
    · rw [if_neg h1] at h
      by_cases h2 : (getN e t i).val ≠ e
      · rw [if_pos h2] at h
        exact absurd h (by simp)
      · rw [if_neg h2] at h
        by_cases h3 : hsub (getN e t i) b = 0
        · rw [if_pos h3] at h
          obtain ⟨hl, hpres⟩ := ih _ _ _ h
          rw [setSub_length] at hl
          refine ⟨hl, ?_⟩
          intro j hj
          obtain ⟨hv, hs⟩ := hpres j (by rw [setSub_length]; omega)
          by_cases hji : j = i
          · subst hji
            have hself := getN_setSub_self e t j b t.length
              (by omega)
            constructor
            · rw [hv, hself]
              cases b <;> rfl
            · intro b' hb'
              by_cases hbb : b' = b
              · subst hbb
                exact absurd h3 hb'
              · have hoth : hsub (getN e (setSub t j b t.length) j) b' =
                    hsub (getN e t j) b' := by
                  rw [hself]
                  cases b <;> cases b' <;> simp [hsub] <;> simp at hbb
                rw [← hoth]
                exact hs b' (by rw [hoth]; exact hb')
          · have hne := getN_setSub_ne e t i j b t.length hji
            rw [hne] at hv hs
            exact ⟨hv, hs⟩
        · rw [if_neg h3] at h
          exact ih _ _ _ h

theorem pushChainB_subs (e val : Nat) : ∀ (bs : List Bool) (base m : Nat) (d : HNode),
    m ≤ bs.length →
    ((pushChainB e val bs base).getD m d).sub0 ≤ base + bs.length ∧
    ((pushChainB e val bs base).getD m d).sub1 ≤ base + bs.length := by
  intro bs
  induction bs with
  | nil =>
    intro base m d hm
    have hm0 : m = 0 := by simpa using hm
    subst hm0
    simp [pushChainB]
  | cons b bs ih =>
    intro base m d hm
    cases m with
    | zero =>
      have hg : (pushChainB e val (b :: bs) base).getD 0 d =
          ⟨if b then 0 else base + 1, if b then base + 1 else 0, e⟩ := rfl
      rw [hg]
      cases b <;> constructor <;> simp <;> omega
    | succ m =>
      have hg : (pushChainB e val (b :: bs) base).getD (m + 1) d =
          (pushChainB e val bs (base + 1)).getD m d := rfl
      rw [hg]
      have := ih (base + 1) m d (by simpa using hm)
      constructor <;> (simp only [List.length_cons]; omega)

theorem insertDB_WF (e val : Nat) : ∀ (bs : List Bool) (i : Nat) (t t' : List HNode),
    WFdyn e t → i < t.length → insertDB e val bs i t = some t' → WFdyn e t' := by
  intro bs
  induction bs with
  | nil =>
    intro i t t' hwf hi h
    unfold insertDB at h
    rw [if_neg (by omega)] at h
    exact absurd h (by simp)
  | cons b bs ih =>
    intro i t t' hwf hi h
    unfold insertDB at h
    rw [if_neg (by omega)] at h
    by_cases h2 : (getN e t i).val ≠ e
    · rw [if_pos h2] at h
      exact absurd h (by simp)
    · rw [if_neg h2] at h
      by_cases h3 : hsub (getN e t i) b = 0
      · rw [if_pos h3] at h
        have hsl : (setSub t i b t.length).length = t.length := setSub_length t i b t.length
        have hpush := insertDB_push e val bs (setSub t i b t.length)
        rw [hsl] at hpush
        rw [hpush] at h
        simp only [Option.some.injEq] at h
        subst h
        set t1 := setSub t i b t.length with ht1
        have htotal : (t1 ++ pushChainB e val bs t.length).length =
            t1.length + (bs.length + 1) := by
          rw [List.length_append, pushChainB_length]
        constructor
        · omega
        · intro j hj
          by_cases hjt : j < t1.length
          · rw [getN_append e t1 _ j hjt]
            have hsubs : (getN e t1 j).sub0 ≤ t.length ∧ (getN e t1 j).sub1 ≤ t.length := by
              by_cases hji : j = i
              · subst hji
                rw [ht1, getN_setSub_self e t j b t.length (by omega)]
                have := hwf.2 j (by omega)
                cases b <;> simp <;> omega
              · rw [ht1, getN_setSub_ne e t i j b t.length hji]
                have := hwf.2 j (by rw [hsl] at hjt; omega)
                omega
            omega
          · push_neg at hjt
            rw [getN_append_right e t1 _ j hjt]
            have hm : j - t1.length ≤ bs.length := by omega
            have := pushChainB_subs e val bs t.length (j - t1.length) ⟨0, 0, e⟩ hm
            unfold getN
            omega
      · rw [if_neg h3] at h
        have htmp : hsub (getN e t i) b < t.length := by
          have := hwf.2 i hi
          unfold hsub
          cases b <;> simp <;> omega
        exact ih _ t t' hwf htmp h

theorem insertD_WF (e : Nat) (t t' : List HNode) (len code val : Nat) (hwf : WFdyn e t)
    (h : insertD e t len code val = some t') : WFdyn e t' := by
  unfold insertD at h
  by_cases hv : val = e
  · rw [if_pos hv] at h
    exact absurd h (by simp)
  · rw [if_neg hv] at h
    rw [insertDGo_eq_B] at h
    exact insertDB_WF e val _ 0 t t' hwf hwf.1 h

theorem pushChainB_pathAt (e val : Nat) : ∀ (bs : List Bool) (t : List HNode),
    pathAt e (t ++ pushChainB e val bs t.length) t.length bs val := by
  intro bs
  induction bs with
  | nil =>
    intro t
    unfold pathAt
    intro m hm
    have hm0 : m = 0 := by simpa using hm
    subst hm0
    refine ⟨t.length, rfl, by simp [pushChainB], by simp, ?_⟩
    intro _
    rw [getN_append_right e t _ t.length le_rfl]
    simp only [Nat.sub_self]
    rfl
  | cons b bs ih =>
    intro t
    unfold pathAt
    intro m hm
    have hassoc : t ++ pushChainB e val (b :: bs) t.length =
        (t ++ [(⟨if b then 0 else t.length + 1, if b then t.length + 1 else 0, e⟩ : HNode)]) ++
          pushChainB e val bs (t.length + 1) := by
      rw [List.append_assoc]
      rfl
    have hnode : getN e (t ++ pushChainB e val (b :: bs) t.length) t.length =
        ⟨if b then 0 else t.length + 1, if b then t.length + 1 else 0, e⟩ := by
      rw [getN_append_right e t _ t.length le_rfl]
      simp only [Nat.sub_self]
      rfl
    cases m with
    | zero =>
      refine ⟨t.length, rfl, ?_, ?_, ?_⟩
      · simp [pushChainB_length]
      · intro _
        rw [hnode]
      · intro habs
        simp at habs
    | succ m' =>
      have hm' : m' ≤ bs.length := by simpa using hm
      have hstep : (b :: bs).take (m' + 1) = b :: bs.take m' := rfl
      rw [hstep]
      have hsubv : hsub (getN e (t ++ pushChainB e val (b :: bs) t.length) t.length) b =
          t.length + 1 := by
        rw [hnode]
        cases b <;> rfl
      have hfc : followIdx e (t ++ pushChainB e val (b :: bs) t.length) t.length
          (b :: bs.take m') =
          followIdx e (t ++ pushChainB e val (b :: bs) t.length) (t.length + 1)
            (bs.take m') := by
        show (if hsub (getN e (t ++ pushChainB e val (b :: bs) t.length) t.length) b = 0
            then none
            else followIdx e (t ++ pushChainB e val (b :: bs) t.length)
              (hsub (getN e (t ++ pushChainB e val (b :: bs) t.length) t.length) b)
              (bs.take m')) = _
        rw [hsubv]
        rw [if_neg (by omega)]
      rw [hfc]
      have hih := ih (t ++ [(⟨if b then 0 else t.length + 1, if b then t.length + 1 else 0,
          e⟩ : HNode)])
      unfold pathAt at hih
      have hlen1 : (t ++ [(⟨if b then 0 else t.length + 1, if b then t.length + 1 else 0,
          e⟩ : HNode)]).length = t.length + 1 := by simp
      rw [hlen1] at hih
      rw [← hassoc] at hih
      obtain ⟨n, hf, hb, hv1, hv2⟩ := hih m' hm'
      refine ⟨n, hf, hb, ?_, ?_⟩
      · intro hlt
        exact hv1 (by simpa using hlt)
      · intro heq
        exact hv2 (by simpa using heq)

/-- Along a successful dynamic insert, the inserted code's bit path exists
from the start node and ends in the inserted value. -/
theorem insertDB_pathAt (e val : Nat) : ∀ (bs : List Bool) (i : Nat) (t t' : List HNode),
    WFdyn e t → i < t.length → insertDB e val bs i t = some t' → pathAt e t' i bs val := by
  intro bs
  induction bs with
  | nil =>
    intro i t t' hwf hi h
    unfold insertDB at h
    rw [if_neg (by omega)] at h
    exact absurd h (by simp)
  | cons b bs ih =>
    intro i t t' hwf hi h
    unfold insertDB at h
    rw [if_neg (by omega)] at h
    by_cases h2 : (getN e t i).val ≠ e
    · rw [if_pos h2] at h
      exact absurd h (by simp)
    · rw [if_neg h2] at h
      push_neg at h2
      by_cases h3 : hsub (getN e t i) b = 0
      · rw [if_pos h3] at h
        have hsl : (setSub t i b t.length).length = t.length := setSub_length t i b t.length
        have hpush := insertDB_push e val bs (setSub t i b t.length)
        rw [hsl] at hpush
        rw [hpush] at h
        simp only [Option.some.injEq] at h
        subst h
        set t1 := setSub t i b t.length with ht1
        have hsl' : t1.length = t.length := by
          rw [ht1]
          exact setSub_length t i b t.length
        have hchain := pushChainB_pathAt e val bs t1
        rw [hsl'] at hchain
        unfold pathAt
        intro m hm
        cases m with
        | zero =>
          refine ⟨i, rfl, ?_, ?_, ?_⟩
          · rw [List.length_append]
            omega
          · intro _
            rw [getN_append e t1 _ i (by omega)]
            rw [ht1, getN_setSub_self e t i b t.length (by omega)]
            cases b
            · exact h2
            · exact h2
          · intro habs
            simp at habs
        | succ m' =>
          have hm' : m' ≤ bs.length := by simpa using hm
          have hroot : getN e (t1 ++ pushChainB e val bs t.length) i = getN e t1 i :=
            getN_append e t1 _ i (by omega)
          have hsubI : hsub (getN e t1 i) b = t.length := by
            rw [ht1, getN_setSub_self e t i b t.length (by omega)]
            cases b <;> rfl
          have hstep : (b :: bs).take (m' + 1) = b :: bs.take m' := rfl
          rw [hstep]
          have hfc : followIdx e (t1 ++ pushChainB e val bs t.length) i (b :: bs.take m') =
              followIdx e (t1 ++ pushChainB e val bs t.length) t.length (bs.take m') := by
            show (if hsub (getN e (t1 ++ pushChainB e val bs t.length) i) b = 0
                then none
                else followIdx e (t1 ++ pushChainB e val bs t.length)
                  (hsub (getN e (t1 ++ pushChainB e val bs t.length) i) b)
                  (bs.take m')) = _
            rw [hroot, hsubI]
            rw [if_neg (by omega)]
          rw [hfc]
          unfold pathAt at hchain
          obtain ⟨n, hf, hb, hv1, hv2⟩ := hchain m' hm'
          refine ⟨n, hf, hb, ?_, ?_⟩
          · intro hlt
            exact hv1 (by simpa using hlt)
          · intro heq
            exact hv2 (by simpa using heq)
      · rw [if_neg h3] at h
        have htmp : hsub (getN e t i) b < t.length := by
          have := hwf.2 i hi
          unfold hsub
          cases b <;> simp <;> omega
        have hpa := ih _ t t' hwf htmp h
        obtain ⟨hlen, hpres⟩ := insertDB_mono e val bs _ t t' h
        unfold pathAt
        intro m hm
        cases m with
        | zero =>
          refine ⟨i, rfl, by omega, ?_, ?_⟩
          · intro _
            rw [(hpres i hi).1]
            exact h2
          · intro habs
            simp at habs
        | succ m' =>
          have hm' : m' ≤ bs.length := by simpa using hm
          have hsub' : hsub (getN e t' i) b = hsub (getN e t i) b := (hpres i hi).2 b h3
          have hstep : (b :: bs).take (m' + 1) = b :: bs.take m' := rfl
          rw [hstep]
          have hfc : followIdx e t' i (b :: bs.take m') =
              followIdx e t' (hsub (getN e t i) b) (bs.take m') := by
            show (if hsub (getN e t' i) b = 0 then none
                else followIdx e t' (hsub (getN e t' i) b) (bs.take m')) = _
            rw [hsub']
            rw [if_neg h3]
          rw [hfc]
          unfold pathAt at hpa
          obtain ⟨n, hf, hb, hv1, hv2⟩ := hpa m' hm'
          refine ⟨n, hf, hb, ?_, ?_⟩
          · intro hlt
            exact hv1 (by simpa using hlt)
          · intro heq
            exact hv2 (by simpa using heq)

/-- A path of existing links survives a successful dynamic insert. -/
theorem followIdx_mono (e val : Nat) (bs0 : List Bool) (i0 : Nat) (t t' : List HNode)
    (h : insertDB e val bs0 i0 t = some t') (hwf : WFdyn e t) :
    ∀ (bs : List Bool) (i n : Nat), i < t.length → followIdx e t i bs = some n →
      followIdx e t' i bs = some n ∧ n < t.length := by
  obtain ⟨hlen, hpres⟩ := insertDB_mono e val bs0 i0 t t' h
  intro bs
  induction bs with
  | nil =>
    intro i n hi hf
    simp only [followIdx, Option.some.injEq] at hf
    subst hf
    exact ⟨rfl, hi⟩
  | cons b bs ih =>
    intro i n hi hf
    have heq : followIdx e t i (b :: bs) =
        if hsub (getN e t i) b = 0 then none
        else followIdx e t (hsub (getN e t i) b) bs := rfl
    rw [heq] at hf
    by_cases h0 : hsub (getN e t i) b = 0
    · rw [if_pos h0] at hf
      exact absurd hf (by simp)
    · rw [if_neg h0] at hf
      have htmp : hsub (getN e t i) b < t.length := by
        have := hwf.2 i hi
        unfold hsub
        cases b <;> simp <;> omega
      obtain ⟨hf', hn⟩ := ih _ _ htmp hf
      refine ⟨?_, hn⟩
      have heq' : followIdx e t' i (b :: bs) =
          if hsub (getN e t' i) b = 0 then none
          else followIdx e t' (hsub (getN e t' i) b) bs := rfl
      rw [heq', (hpres i hi).2 b h0, if_neg h0]
      exact hf'

/-- A stored bit path survives a successful dynamic insert. -/
theorem pathAt_mono (e val v : Nat) (bs0 : List Bool) (i0 : Nat) (t t' : List HNode)
    (h : insertDB e val bs0 i0 t = some t') (hwf : WFdyn e t) (bs : List Bool) (i : Nat)
    (hi : i < t.length) (hp : pathAt e t i bs v) : pathAt e t' i bs v := by
  obtain ⟨hlen, hpres⟩ := insertDB_mono e val bs0 i0 t t' h
  intro m hm
  obtain ⟨n, hf, hn, hv1, hv2⟩ := hp m hm
  obtain ⟨hf', _⟩ := followIdx_mono e val bs0 i0 t t' h hwf _ i n hi hf
  refine ⟨n, hf', by omega, ?_, ?_⟩
  · intro hlt
    rw [(hpres n hn).1]
    exact hv1 hlt
  · intro heq
    rw [(hpres n hn).1]
    exact hv2 heq

/-- A code stored in a dynamic table stays stored across a later
successful insert. -/
theorem storedAt_insertD (e : Nat) (t t' : List HNode) (len code val : Nat) (c : HCode)
    (hwf : WFdyn e t) (h : insertD e t len code val = some t') (hc : storedAt e t c) :
    storedAt e t' c := by
  unfold insertD at h
  by_cases hv : val = e
  · rw [if_pos hv] at h
    exact absurd h (by simp)
  · rw [if_neg hv] at h
    rw [insertDGo_eq_B] at h
    exact pathAt_mono e val c.val _ 0 t t' h hwf _ 0 hwf.1 hc

/-- Dynamic insert fails as soon as the walk is at a non-EMPTY node: if
some prefix of the new code leads through existing links to a node holding
a real value, insert returns failure. -/
theorem insertDB_fail_mid (e val : Nat) : ∀ (bs : List Bool) (i : Nat) (t : List HNode),
    WFdyn e t → i < t.length →
    (∃ m n, m ≤ bs.length ∧ followIdx e t i (bs.take m) = some n ∧ (getN e t n).val ≠ e) →
    insertDB e val bs i t = none := by
  intro bs
  induction bs with
  | nil =>
    intro i t hwf hi _
    unfold insertDB
    rw [if_neg (by omega)]
  | cons b bs ih =>
    intro i t hwf hi hex
    obtain ⟨m, n, hm, hf, hval⟩ := hex
    unfold insertDB
    rw [if_neg (by omega)]
    by_cases h2 : (getN e t i).val ≠ e
    · rw [if_pos h2]
    · rw [if_neg h2]
      push_neg at h2
      cases m with
      | zero =>
        have hni : i = n := by simpa [followIdx] using hf
        rw [← hni] at hval
        exact absurd h2 hval
      | succ m' =>
        have hm' : m' ≤ bs.length := by simpa using hm
        have htake : (b :: bs).take (m' + 1) = b :: bs.take m' := rfl
        rw [htake] at hf
        have heq : followIdx e t i (b :: bs.take m') =
            if hsub (getN e t i) b = 0 then none
            else followIdx e t (hsub (getN e t i) b) (bs.take m') := rfl
        rw [heq] at hf
        by_cases h0 : hsub (getN e t i) b = 0
        · rw [if_pos h0] at hf
          exact absurd hf (by simp)
        · rw [if_neg h0] at hf
          rw [if_neg h0]
          have htmp : hsub (getN e t i) b < t.length := by
            have := hwf.2 i hi
            unfold hsub
            cases b <;> simp <;> omega
          exact ih _ t hwf htmp ⟨m', n, hm', hf, hval⟩

/-- Dynamic insert fails when every bit of the new code follows an already
existing link: the walk never reaches the push phase and ends at an
existing node. -/
theorem insertDB_fail_full (e val : Nat) : ∀ (bs : List Bool) (i n : Nat) (t : List HNode),
    WFdyn e t → i < t.length → followIdx e t i bs = some n →
    insertDB e val bs i t = none := by
  intro bs
  induction bs with
  | nil =>
    intro i n t hwf hi _
    unfold insertDB
    rw [if_neg (by omega)]
  | cons b bs ih =>
    intro i n t hwf hi hf
    have heq : followIdx e t i (b :: bs) =
        if hsub (getN e t i) b = 0 then none
        else followIdx e t (hsub (getN e t i) b) bs := rfl
    rw [heq] at hf
    by_cases h0 : hsub (getN e t i) b = 0
    · rw [if_pos h0] at hf
      exact absurd hf (by simp)
    · rw [if_neg h0] at hf
      unfold insertDB
      rw [if_neg (by omega)]
      by_cases h2 : (getN e t i).val ≠ e
      · rw [if_pos h2]
      · rw [if_neg h2]
        rw [if_neg h0]
        have htmp : hsub (getN e t i) b < t.length := by
          have := hwf.2 i hi
          unfold hsub
          cases b <;> simp <;> omega
        exact ih _ n t hwf htmp hf

/-- A successful dynamic insert stores the inserted code. -/
theorem insertD_storedAt (e : Nat) (t t' : List HNode) (len code val : Nat)
    (hwf : WFdyn e t) (h : insertD e t len code val = some t') :
    storedAt e t' ⟨len, code, val⟩ := by
  unfold insertD at h
  by_cases hv : val = e
  · rw [if_pos hv] at h
    exact absurd h (by simp)
  · rw [if_neg hv] at h
    rw [insertDGo_eq_B] at h
    exact insertDB_pathAt e val (lowBits len code) 0 t t' hwf hwf.1 h

/-- Dynamic insert fails when a stored code (with a real value) is a
prefix of the new code, equal codes included. -/
theorem insertD_fail_ext (e : Nat) (t : List HNode) (cp c : HCode) (hwf : WFdyn e t)
    (hst : storedAt e t cp) (hvne : cp.val ≠ e) (hpfx : codePfx cp c) :
    insertD e t c.len c.code c.val = none := by
  obtain ⟨hle, htake⟩ := hpfx
  unfold insertD
  by_cases hv : c.val = e
  · rw [if_pos hv]
  · rw [if_neg hv]
    rw [insertDGo_eq_B]
    apply insertDB_fail_mid e c.val (lowBits c.len c.code) 0 t hwf hwf.1
    have hsp := hst cp.len (le_of_eq (lowBits_length cp.code cp.len).symm)
    obtain ⟨n, hf, hn, _, hvend⟩ := hsp
    have hvn : (getN e t n).val = cp.val := hvend (lowBits_length cp.code cp.len).symm
    have htf : (lowBits cp.len cp.code).take cp.len = lowBits cp.len cp.code :=
      List.take_of_length_le (le_of_eq (lowBits_length cp.code cp.len))
    rw [htf] at hf
    rw [htake] at hf
    refine ⟨cp.len, n, ?_, hf, ?_⟩
    · rw [lowBits_length]
      exact hle
    · rw [hvn]
      exact hvne

/-- Dynamic insert fails when the new code is a prefix of a stored code
(with a real value), equal codes included. -/
theorem insertD_fail_pfx (e : Nat) (t : List HNode) (cp c : HCode) (hwf : WFdyn e t)
    (hst : storedAt e t cp) (hvne : cp.val ≠ e) (hpfx : codePfx c cp) :
    insertD e t c.len c.code c.val = none := by
  obtain ⟨hle, htake⟩ := hpfx
  by_cases heq : c.len = cp.len
  · apply insertD_fail_ext e t cp c hwf hst hvne
    refine ⟨by omega, ?_⟩
    have hfull : (lowBits cp.len cp.code).take c.len = lowBits cp.len cp.code :=
      List.take_of_length_le (by rw [lowBits_length]; omega)
    rw [hfull] at htake
    rw [← htake, ← heq]
    exact (List.take_of_length_le (le_of_eq (lowBits_length c.code c.len))).symm
  · have hsp := hst c.len (by rw [lowBits_length]; omega)
    obtain ⟨n, hf, hn, _, _⟩ := hsp
    rw [← htake] at hf
    unfold insertD
    by_cases hv : c.val = e
    · rw [if_pos hv]
    · rw [if_neg hv]
      rw [insertDGo_eq_B]
      exact insertDB_fail_full e c.val (lowBits c.len c.code) 0 n t hwf hwf.1 hf

/-- Chain invariant for the dynamic variant: a successful insert chain
keeps the table well formed, preserves stored codes, and stores every
inserted code with a non-EMPTY value. -/
theorem insertDynAll_inv (e : Nat) : ∀ (cs : List HCode) (t0 t : List HNode),
    WFdyn e t0 → insertDynAll e t0 cs = some t →
    WFdyn e t ∧ (∀ c, storedAt e t0 c → storedAt e t c) ∧
    (∀ c ∈ cs, storedAt e t c ∧ c.val ≠ e) := by
  intro cs
  induction cs with
  | nil =>
    intro t0 t hwf h
    simp only [insertDynAll, Option.some.injEq] at h
    subst h
    exact ⟨hwf, fun c hc => hc, by simp⟩
  | cons c cs ih =>
    intro t0 t hwf h
    unfold insertDynAll at h
    cases hi : insertD e t0 c.len c.code c.val with
    | none =>
      rw [hi] at h
      exact absurd h (by simp)
    | some t1 =>
      rw [hi] at h
      dsimp only at h
      have hwf1 : WFdyn e t1 := insertD_WF e t0 t1 _ _ _ hwf hi
      have hst1 : storedAt e t1 (⟨c.len, c.code, c.val⟩ : HCode) :=
        insertD_storedAt e t0 t1 _ _ _ hwf hi
      have hvne : c.val ≠ e := by
        intro hv
        unfold insertD at hi
        rw [if_pos hv] at hi
        exact absurd hi (by simp)
      obtain ⟨hW, hP, hS⟩ := ih t1 t hwf1 h
      refine ⟨hW, fun c' hc' => hP c' (storedAt_insertD e t0 t1 _ _ _ c' hwf hi hc'), ?_⟩
      intro c' hc'
      rcases List.mem_cons.mp hc' with rfl | hmem
      · exact ⟨hP c' hst1, hvne⟩
      · exact hS c' hmem

/-- A code stored (with real value) before a successful dynamic insert
chain shares no prefix with any code of the chain, in either direction. -/
theorem insertDynAll_noshare (e : Nat) : ∀ (cs : List HCode) (t0 t : List HNode),
    WFdyn e t0 → insertDynAll e t0 cs = some t →
    ∀ a, storedAt e t0 a → a.val ≠ e →
    ∀ b ∈ cs, ¬codePfx a b ∧ ¬codePfx b a := by
  intro cs
  induction cs with
  | nil =>
    intro t0 t _ _ a _ _ b hb
    exact absurd hb (by simp)
  | cons c cs ih =>
    intro t0 t hwf h a ha hav b hb
    unfold insertDynAll at h
    cases hi : insertD e t0 c.len c.code c.val with
    | none =>
      rw [hi] at h
      exact absurd h (by simp)
    | some t1 =>
      rw [hi] at h
      dsimp only at h
      have hnac : ¬codePfx a c := by
        intro hpfx
        have hfail := insertD_fail_ext e t0 a c hwf ha hav hpfx
        rw [hfail] at hi
        exact absurd hi (by simp)
      have hnca : ¬codePfx c a := by
        intro hpfx
        have hfail := insertD_fail_pfx e t0 a c hwf ha hav hpfx
        rw [hfail] at hi
        exact absurd hi (by simp)
      rcases List.mem_cons.mp hb with rfl | hmem
      · exact ⟨hnac, hnca⟩
      · have hwf1 : WFdyn e t1 := insertD_WF e t0 t1 _ _ _ hwf hi
        have ha1 : storedAt e t1 a := storedAt_insertD e t0 t1 _ _ _ a hwf hi ha
        exact ih t1 t hwf1 h a ha1 hav b hmem

/-- The codes of a successful dynamic insert chain are pairwise
prefix-free. -/
theorem insertDynAll_pairwise (e : Nat) : ∀ (cs : List HCode) (t0 t : List HNode),
    WFdyn e t0 → insertDynAll e t0 cs = some t →
    List.Pairwise (fun a b => ¬codePfx a b ∧ ¬codePfx b a) cs := by
  intro cs
  induction cs with
  | nil =>
    intro t0 t _ _
    exact List.Pairwise.nil
  | cons c cs ih =>
    intro t0 t hwf h
    unfold insertDynAll at h
    cases hi : insertD e t0 c.len c.code c.val with
    | none =>
      rw [hi] at h
      exact absurd h (by simp)
    | some t1 =>
      rw [hi] at h
      dsimp only at h
      have hwf1 : WFdyn e t1 := insertD_WF e t0 t1 _ _ _ hwf hi
      have hst1 : storedAt e t1 (⟨c.len, c.code, c.val⟩ : HCode) :=
        insertD_storedAt e t0 t1 _ _ _ hwf hi
      have hvne : c.val ≠ e := by
        intro hv
        unfold insertD at hi
        rw [if_pos hv] at hi
        exact absurd hi (by simp)
      refine List.Pairwise.cons ?_ (ih t1 t hwf1 h)
      intro b hb
      exact insertDynAll_noshare e cs t1 t hwf1 h c hst1 hvne b hb

/-- The freshly constructed dynamic table is well formed. -/
theorem mkDyn_WF (e : Nat) : WFdyn e (mkDyn e) := by
  constructor
  · simp [mkDyn]
  · intro j hj
    have hj0 : j = 0 := by
      simp [mkDyn] at hj
      omega
    subst hj0
    exact ⟨by simp [mkDyn, getN], by simp [mkDyn, getN]⟩

/-- C3, corrected.  Both variants fail when value equals EMPTY (the flat
variant also when the length exceeds the depth), and both fail when the
new code equals an already-stored code or has one as a proper prefix.
Only the dynamic variant additionally fails when the new code is a proper
prefix of a stored code - its chains are therefore pairwise prefix-free -
whereas the flat variant leaves intermediate slots EMPTY and accepts such
an insert (see the counterexample). -/
theorem c3_amended (D e : Nat) (cs : List HCode) (tF : List Nat) (tD : List HNode)
    (c cp : HCode)
    (hF : insertFlatAll D e (mkFlat D e) cs = some tF)
    (hD : insertDynAll e (mkDyn e) cs = some tD) :
    (c.val = e ∨ c.len > D → insertFlat D e tF c.len c.code c.val = none) ∧
    (c.val = e → insertD e tD c.len c.code c.val = none) ∧
    (cp ∈ cs → 1 ≤ cp.len → codePfx cp c → insertFlat D e tF c.len c.code c.val = none) ∧
    (cp ∈ cs → codePfx cp c → insertD e tD c.len c.code c.val = none) ∧
    (cp ∈ cs → codePfx c cp → insertD e tD c.len c.code c.val = none) ∧
    List.Pairwise (fun a b => ¬codePfx a b ∧ ¬codePfx b a) cs := by
  obtain ⟨hW, _, hS⟩ := insertDynAll_inv e cs (mkDyn e) tD (mkDyn_WF e) hD
  refine ⟨?_, ?_, ?_, ?_, ?_, insertDynAll_pairwise e cs (mkDyn e) tD (mkDyn_WF e) hD⟩
  · intro hg
    unfold insertFlat
    rw [if_pos hg]
  · intro hv
    unfold insertD
    rw [if_pos hv]
  · intro hmem hlen hpfx
    exact flat_prefix_fail D e cs tF cp c hF hmem hlen hpfx
  · intro hmem hpfx
    obtain ⟨hst, hvne⟩ := hS cp hmem
    exact insertD_fail_ext e tD cp c hW hst hvne hpfx
  · intro hmem hpfx
    obtain ⟨hst, hvne⟩ := hS cp hmem
    exact insertD_fail_pfx e tD cp c hW hst hvne hpfx

/-- C3 counterexample: in the flat variant, inserting a code that is a
proper prefix of an already-stored code succeeds instead of failing.
With depth 2 and EMPTY 9, after storing code 10b (length 2, value 1) the
insert of code 1b (length 1, value 2) - a proper prefix - returns an
updated table. -/
theorem c3_counterexample :
    codePfx ⟨1, 1, 2⟩ ⟨2, 2, 1⟩ ∧ (⟨1, 1, 2⟩ : HCode).len < (⟨2, 2, 1⟩ : HCode).len ∧
    insertFlatAll 2 9 (mkFlat 2 9) [⟨2, 2, 1⟩] = some [9, 9, 9, 9, 1, 9] ∧
    insertFlat 2 9 [9, 9, 9, 9, 1, 9] 1 1 2 = some [9, 2, 9, 9, 1, 9] := by decide

/-- Witness for C3: a concrete depth-2 chain storing the single code 10b
in both variants, instantiating every clause of the corrected claim. -/
theorem c3_amended_witness :
    (((1 : Nat) = 7 ∨ (2 : Nat) > 2) → insertFlat 2 7 [7, 7, 7, 7, 1, 7] 2 2 1 = none) ∧
    ((1 : Nat) = 7 → insertD 7 [⟨0, 1, 7⟩, ⟨2, 0, 7⟩, ⟨0, 0, 1⟩] 2 2 1 = none) ∧
    ((⟨2, 2, 1⟩ : HCode) ∈ [(⟨2, 2, 1⟩ : HCode)] → (1 : Nat) ≤ 2 →
      codePfx ⟨2, 2, 1⟩ ⟨2, 2, 1⟩ → insertFlat 2 7 [7, 7, 7, 7, 1, 7] 2 2 1 = none) ∧
    ((⟨2, 2, 1⟩ : HCode) ∈ [(⟨2, 2, 1⟩ : HCode)] → codePfx ⟨2, 2, 1⟩ ⟨2, 2, 1⟩ →
      insertD 7 [⟨0, 1, 7⟩, ⟨2, 0, 7⟩, ⟨0, 0, 1⟩] 2 2 1 = none) ∧
    ((⟨2, 2, 1⟩ : HCode) ∈ [(⟨2, 2, 1⟩ : HCode)] → codePfx ⟨2, 2, 1⟩ ⟨2, 2, 1⟩ →
      insertD 7 [⟨0, 1, 7⟩, ⟨2, 0, 7⟩, ⟨0, 0, 1⟩] 2 2 1 = none) ∧
    List.Pairwise (fun a b => ¬codePfx a b ∧ ¬codePfx b a) [(⟨2, 2, 1⟩ : HCode)] :=
  c3_amended 2 7 [⟨2, 2, 1⟩] [7, 7, 7, 7, 1, 7] [⟨0, 1, 7⟩, ⟨2, 0, 7⟩, ⟨0, 0, 1⟩]
    ⟨2, 2, 1⟩ ⟨2, 2, 1⟩ (by decide) (by decide)
